import Mathlib

/-!
# proto2josn: the descriptor printer of `parse.go`

A shallow embedding of `ProtoParser` (`parse.go`): the registry `Files`,
`ParseProtoFile`, `PrintProtoInfo`, `printMessage`, `printEnum`,
`printService` and `getFieldType`.

The standard output of the program is modelled as the `String` of all text
written by the `fmt.Printf` / `fmt.Println` calls, in order. A printing
function that can panic returns a `Printed`: the text written and whether the
function returned or panicked.

The descriptor types come from `google.golang.org/protobuf/reflect/protoreflect`
and are not part of the repository; they are modelled here as plain data
carrying the accessors `parse.go` reads.
-/

namespace Proto2Json

/-! ## Descriptor data (the `protoreflect` accessors read by `parse.go`) -/

/-- The type `protoreflect.Kind`: an `int8` in Go. -/
structure Kind where
  val : Int
deriving DecidableEq, Repr

def DoubleKind : Kind := ⟨1⟩
def FloatKind : Kind := ⟨2⟩
def Int64Kind : Kind := ⟨3⟩
def Uint64Kind : Kind := ⟨4⟩
def Int32Kind : Kind := ⟨5⟩
def Fixed64Kind : Kind := ⟨6⟩
def Fixed32Kind : Kind := ⟨7⟩
def BoolKind : Kind := ⟨8⟩
def StringKind : Kind := ⟨9⟩
def GroupKind : Kind := ⟨10⟩
def MessageKind : Kind := ⟨11⟩
def BytesKind : Kind := ⟨12⟩
def Uint32Kind : Kind := ⟨13⟩
def EnumKind : Kind := ⟨14⟩
def Sfixed32Kind : Kind := ⟨15⟩
def Sfixed64Kind : Kind := ⟨16⟩
def Sint32Kind : Kind := ⟨17⟩
def Sint64Kind : Kind := ⟨18⟩

/-- The type `protoreflect.Cardinality`: an `int8` in Go. -/
structure Cardinality where
  val : Int
deriving DecidableEq, Repr

def Optional : Cardinality := ⟨1⟩
def Required : Cardinality := ⟨2⟩
def Repeated : Cardinality := ⟨3⟩

/-- The type `protoreflect.Value` as returned by `FieldDescriptor.Default()`.
A floating-point value carries the text `fmt` prints for it: floating-point
formatting is not part of this development. -/
inductive Value where
  | invalid
  | bool (b : Bool)
  | int (n : Int)
  | uint (n : Nat)
  | float (text : String)
  | string (s : String)
  | bytes (b : List Nat)
  | enumNumber (n : Int)
deriving DecidableEq, Repr

/-- The text of `fmt.Sprint` on a byte slice: the decimal values separated by
single spaces, in square brackets. -/
def sprintBytes (b : List Nat) : String :=
  "[" ++ " ".intercalate (b.map toString) ++ "]"

/-- The text `%v` prints for a `protoreflect.Value` (its `String()` method): a
string value is printed as it is, every other value as `fmt.Sprint` prints
the underlying Go value, `<nil>` for the invalid value. -/
def Value.Sprint : Value → String
  | .invalid => "<nil>"
  | .bool b => if b then "true" else "false"
  | .int n => toString n
  | .uint n => toString n
  | .float text => text
  | .string s => s
  | .bytes b => sprintBytes b
  | .enumNumber n => toString n

/-- The type `protoreflect.Syntax`: an `int8` in Go. -/
structure Syntax where
  val : Int
deriving DecidableEq, Repr

def Proto2 : Syntax := ⟨2⟩
def Proto3 : Syntax := ⟨3⟩
def Editions : Syntax := ⟨4⟩

/-- The text `%s` prints for a `protoreflect.Syntax` (its `String()` method). -/
def Syntax.Sprint (s : Syntax) : String :=
  if s = Proto2 then "proto2"
  else if s = Proto3 then "proto3"
  else if s = Editions then "editions"
  else "<unknown:" ++ toString s.val ++ ">"

structure EnumValueDescriptor where
  Name : String
  Number : Int
deriving DecidableEq, Repr

structure EnumDescriptor where
  Name : String
  Values : List EnumValueDescriptor
deriving DecidableEq, Repr

/-- A field descriptor. `ExplicitDefault` is the default written in the proto
file, if there is one. `EnumValues` are the values of `Enum()` for a field of
enum kind. `DefaultEnumValue` is what `DefaultEnumValue()` returns: the
descriptor of the explicit default of an enum field, and `none` (Go `nil`)
for every field without one, enum fields included. -/
structure FieldDescriptor where
  Name : String
  Kind : Kind
  Cardinality : Cardinality
  HasOptionalKeyword : Bool
  IsPacked : Bool
  ExplicitDefault : Option Value
  EnumValues : List EnumValueDescriptor
  DefaultEnumValue : Option EnumValueDescriptor
deriving DecidableEq, Repr

/-- The method `Default()` of the library: the explicit default if there is
one; otherwise no value for a repeated field, and for any other field the
zero value of its kind (no value for the message and group kinds). -/
def FieldDescriptor.Default (field : FieldDescriptor) : Value :=
  match field.ExplicitDefault with
  | some v => v
  | none =>
    if field.Cardinality = Repeated then .invalid
    else if field.Kind = BoolKind then .bool false
    else if field.Kind = Int32Kind ∨ field.Kind = Sint32Kind ∨ field.Kind = Sfixed32Kind then
      .int 0
    else if field.Kind = Int64Kind ∨ field.Kind = Sint64Kind ∨ field.Kind = Sfixed64Kind then
      .int 0
    else if field.Kind = Uint32Kind ∨ field.Kind = Fixed32Kind then .uint 0
    else if field.Kind = Uint64Kind ∨ field.Kind = Fixed64Kind then .uint 0
    else if field.Kind = FloatKind then .float "0"
    else if field.Kind = DoubleKind then .float "0"
    else if field.Kind = StringKind then .string ""
    else if field.Kind = BytesKind then .bytes []
    else if field.Kind = EnumKind then
      match field.EnumValues with
      | v :: _ => .enumNumber v.Number
      | [] => .enumNumber 0
    else .invalid

/-- A message descriptor: its name, its fields, its nested messages and its
nested enums, each in declaration order. -/
inductive MessageDescriptor where
  | mk (Name : String) (Fields : List FieldDescriptor)
      (Messages : List MessageDescriptor) (Enums : List EnumDescriptor)

def MessageDescriptor.Name : MessageDescriptor → String
  | .mk n _ _ _ => n

def MessageDescriptor.Fields : MessageDescriptor → List FieldDescriptor
  | .mk _ fs _ _ => fs

def MessageDescriptor.Messages : MessageDescriptor → List MessageDescriptor
  | .mk _ _ ms _ => ms

def MessageDescriptor.Enums : MessageDescriptor → List EnumDescriptor
  | .mk _ _ _ es => es

structure MethodDescriptor where
  Name : String
  Input : MessageDescriptor
  Output : MessageDescriptor

structure ServiceDescriptor where
  Name : String
  Methods : List MethodDescriptor

/-- An entry of `FileDescriptor.Imports()`. For a file descriptor `FullName()`
is the package of the file, `Path()` its file name. -/
structure FileImport where
  Path : String
  Package : String
deriving DecidableEq, Repr

def FileImport.FullName (i : FileImport) : String := i.Package

structure FileDescriptor where
  Syntax : Syntax
  Package : String
  Path : String
  Imports : List FileImport
  Messages : List MessageDescriptor
  Enums : List EnumDescriptor
  Services : List ServiceDescriptor

/-! ## Go library functions -/

/-- Go `strings.Repeat(s, count)` for a non-negative count. -/
def Repeat (s : String) : Nat → String
  | 0 => ""
  | n + 1 => s ++ Repeat s n

/-- The text written by a loop `for i := 0; i < xs.Len(); i++ { body(xs.Get(i)) }`
whose body cannot panic. -/
def forEach {α : Type} (body : α → String) : List α → String
  | [] => ""
  | x :: xs => body x ++ forEach body xs

/-! ## Output of code that can panic -/

/-- What a piece of code has done to the standard output when control leaves
it: it returned after writing `out`, or it panicked after writing `out`. -/
inductive Printed where
  | done (out : String)
  | panic (out : String)
deriving DecidableEq, Repr

/-- The text written. -/
def Printed.text : Printed → String
  | .done out => out
  | .panic out => out

/-- Whether the code returned. -/
def Printed.returns : Printed → Bool
  | .done _ => true
  | .panic _ => false

/-- Sequencing `first; second`: `second` runs only when `first` returned. -/
def Printed.andThen (first second : Printed) : Printed :=
  match first with
  | .panic out => .panic out
  | .done out =>
    match second with
    | .done out2 => .done (out ++ out2)
    | .panic out2 => .panic (out ++ out2)

/-- A loop `for i := 0; i < xs.Len(); i++ { body(xs.Get(i)) }` whose body can
panic: the loop stops at the first panic. -/
def forEachP {α : Type} (body : α → Printed) : List α → Printed
  | [] => .done ""
  | x :: xs => (body x).andThen (forEachP body xs)

/-! ## `parse.go` -/

/-- `getFieldType` (parse.go:174-215). -/
def getFieldType (field : FieldDescriptor) : String :=
  if field.Kind = DoubleKind then "double"
  else if field.Kind = FloatKind then "float"
  else if field.Kind = Int64Kind then "int64"
  else if field.Kind = Uint64Kind then "uint64"
  else if field.Kind = Int32Kind then "int32"
  else if field.Kind = Fixed64Kind then "fixed64"
  else if field.Kind = Fixed32Kind then "fixed32"
  else if field.Kind = BoolKind then "bool"
  else if field.Kind = StringKind then "string"
  else if field.Kind = BytesKind then "bytes"
  else if field.Kind = Uint32Kind then "uint32"
  else if field.Kind = Sfixed32Kind then "sfixed32"
  else if field.Kind = Sfixed64Kind then "sfixed64"
  else if field.Kind = Sint32Kind then "sint32"
  else if field.Kind = Sint64Kind then "sint64"
  else if field.Kind = EnumKind then "enum"
  else if field.Kind = MessageKind then "message"
  else "unknown"

/-- The variable `attr` of `printMessage` after parse.go:109-115. -/
def fieldAttr (field : FieldDescriptor) : Char :=
  let attr := '*'
  let attr := if field.HasOptionalKeyword then 'o' else attr
  let attr := if field.IsPacked then '+' else attr
  attr

/-- The second `Printf` of the field loop (parse.go:118-126). In the enum
branch `field.DefaultEnumValue().Name()` is a method call on a nil interface
when the field has no default enum value: the program panics before anything
is written. -/
def printFieldDefault (field : FieldDescriptor) : Printed :=
  if field.Kind = MessageKind then .done ";\n"
  else if field.Kind = EnumKind then
    match field.DefaultEnumValue with
    | none => .panic ""
    | some ev => .done (" = " ++ ev.Name ++ ";\n")
  else if field.Kind = StringKind then .done (" = \"" ++ field.Default.Sprint ++ "\";\n")
  else .done (" = " ++ field.Default.Sprint ++ ";\n")

/-- The body of the field loop of `printMessage` (parse.go:106-126): the
first `Printf` (parse.go:116), then the second. -/
def printField (indentStr : String) (field : FieldDescriptor) : Printed :=
  let fieldType := getFieldType field
  let attr := fieldAttr field
  (Printed.done
      (indentStr ++ " [" ++ String.singleton attr ++ "]" ++ fieldType ++ " " ++ field.Name)).andThen
    (printFieldDefault field)

/-- The body of the value loop of `printEnum` (parse.go:148-152). -/
def printEnumValue (indentStr : String) (value : EnumValueDescriptor) : String :=
  indentStr ++ "  " ++ value.Name ++ " = " ++ toString value.Number ++ ";\n"

/-- `printEnum` (parse.go:142-156). -/
def printEnum (enum : EnumDescriptor) (indent : Nat) : String :=
  let indentStr := Repeat "    " indent
  indentStr ++ "enum " ++ enum.Name ++ " \x7b\n"
    ++ forEach (printEnumValue indentStr) enum.Values
    ++ indentStr ++ "\x7d\n"

/-- The body of the method loop of `printService` (parse.go:164-169). -/
def printMethod (indentStr : String) (method : MethodDescriptor) : String :=
  indentStr ++ "  rpc " ++ method.Name ++ " (" ++ method.Input.Name ++ ") returns ("
    ++ method.Output.Name ++ ");\n"

/-- `printService` (parse.go:158-172). -/
def printService (service : ServiceDescriptor) (indent : Nat) : String :=
  let indentStr := Repeat "    " indent
  indentStr ++ "service " ++ service.Name ++ " \x7b\n"
    ++ forEach (printMethod indentStr) service.Methods
    ++ indentStr ++ "\x7d\n"

mutual
/-- `printMessage` (parse.go:100-140): the header, the field loop, the loop
over the nested messages, the loop over the nested enums, the closing line. -/
def printMessage : MessageDescriptor → Nat → Printed
  | .mk name fields msgs enums, indent =>
    let indentStr := Repeat "    " indent
    (Printed.done (indentStr ++ "message " ++ name ++ " \x7b\n")).andThen
      ((forEachP (printField indentStr) fields).andThen
        ((printMessages msgs (indent + 1)).andThen
          ((Printed.done (forEach (fun e => printEnum e (indent + 1)) enums)).andThen
            (Printed.done (indentStr ++ "\x7d \n")))))
/-- The loop over the nested messages in `printMessage` (parse.go:129-132). -/
def printMessages : List MessageDescriptor → Nat → Printed
  | [], _ => .done ""
  | m :: ms, indent => (printMessage m indent).andThen (printMessages ms indent)
end

/-- The type `map[string]protoreflect.FileDescriptor`: the entries of the map,
with pairwise distinct keys. The position of an entry in the list has no
meaning in Go; `range` visits the entries in an order of its own. -/
abbrev FileMap := List (String × FileDescriptor)

/-- The map read `m[k]`. -/
def FileMap.get (m : FileMap) (k : String) : Option FileDescriptor :=
  match m with
  | [] => none
  | (k', v') :: rest => if k' = k then some v' else FileMap.get rest k

/-- The map assignment `m[k] = v`. -/
def FileMap.set (m : FileMap) (k : String) (v : FileDescriptor) : FileMap :=
  match m with
  | [] => [(k, v)]
  | (k', v') :: rest => if k' = k then (k, v) :: rest else (k', v') :: FileMap.set rest k v

/-- An element of the result of `ParseFiles`: a `*desc.FileDescriptor` with
its `GetName()` and `UnwrapFile()`. -/
structure ParsedFile where
  GetName : String
  UnwrapFile : FileDescriptor

/-- `ProtoParser` (parse.go:13-17). The field `parser` is the call
`p.parser.ParseFiles`, which returns the parsed files or an error text. -/
structure ProtoParser where
  parser : String → Except String (List ParsedFile)
  Files : FileMap

/-- `ParseProtoFile` (parse.go:49-58): the parser after the call and the
returned error (`none` for `nil`). -/
def ParseProtoFile (p : ProtoParser) (filePath : String) : ProtoParser × Option String :=
  match p.parser filePath with
  | .error err => (p, some ("failed to parse proto file " ++ filePath ++ ": " ++ err))
  | .ok fileDesc =>
    ({ p with Files := fileDesc.foldl (fun files fd => files.set fd.GetName fd.UnwrapFile) p.Files },
      none)

/-- `NewProtoParser` (parse.go:32-43): the options configure the parser only;
`Files` starts empty. -/
def NewProtoParser (parser : String → Except String (List ParsedFile)) : ProtoParser :=
  { parser := parser, Files := [] }

/-- The body of the `range p.Files` loop of `PrintProtoInfo` (parse.go:62-96):
the header lines, the imports, the messages (where `printMessage` can panic),
the enums, the services. -/
def printFileInfo (fileName : String) (fileDesc : FileDescriptor) : Printed :=
  (Printed.done
      ("\n======== Proto File: " ++ fileName ++ " ========\n"
        ++ "Syntax: " ++ fileDesc.Syntax.Sprint ++ "\n"
        ++ "Package: " ++ fileDesc.Package ++ "\n"
        ++ "Path: " ++ fileDesc.Path ++ "\n")).andThen
    ((Printed.done
        (if fileDesc.Imports.length > 0 then
          "Imports:\n" ++ forEach (fun i => "  - " ++ i.FullName ++ "\n") fileDesc.Imports
        else "")).andThen
      ((if fileDesc.Messages.length > 0 then
          (Printed.done "Messages:\n").andThen (printMessages fileDesc.Messages 1)
        else Printed.done "").andThen
        ((Printed.done
            (if fileDesc.Enums.length > 0 then
              "Enums:\n" ++ forEach (fun e => printEnum e 1) fileDesc.Enums
            else "")).andThen
          (Printed.done
            (if fileDesc.Services.length > 0 then
              "Services:\n" ++ forEach (fun s => printService s 1) fileDesc.Services
            else "")))))

/-- `PrintProtoInfo` (parse.go:60-98) when the `range` loop visits the entries
of `p.Files` in the order `visit`: a panic in one file ends the run. -/
def PrintProtoInfoIn (visit : FileMap) : Printed :=
  forEachP (fun e => printFileInfo e.1 e.2) visit

/-- The orders in which `range m` may visit a Go map: every entry once, in an
order the language leaves unspecified. -/
def rangeOrder (m : FileMap) (visit : FileMap) : Prop :=
  visit.Perm m

/-- `PrintProtoInfo` (parse.go:60-98): `out` is what a run on `p` does. -/
def PrintProtoInfo (p : ProtoParser) (out : Printed) : Prop :=
  ∃ visit, rangeOrder p.Files visit ∧ out = PrintProtoInfoIn visit

/-! ## Auxiliary text -/

/-- The defined kind set of the specification (every kind but the group
kind). -/
def definedKinds : List Kind :=
  [DoubleKind, FloatKind, Int32Kind, Int64Kind, Uint32Kind, Uint64Kind, Sint32Kind,
    Sint64Kind, Fixed32Kind, Fixed64Kind, Sfixed32Kind, Sfixed64Kind, BoolKind, StringKind,
    BytesKind, EnumKind, MessageKind]

/-- The integer kinds. -/
def integerKinds : List Kind :=
  [Int32Kind, Sint32Kind, Sfixed32Kind, Int64Kind, Sint64Kind, Sfixed64Kind, Uint32Kind,
    Fixed32Kind, Uint64Kind, Fixed64Kind]

/-- The marker table of the specification, by the two flags
(has-optional-keyword, is-packed). -/
def specMarker (optional packed : Bool) : Char :=
  match optional, packed with
  | true, false => 'o'
  | false, true => '+'
  | true, true => '+'
  | false, false => '*'

/-- A run of `n` space characters. -/
def spaces (n : Nat) : String := ⟨List.replicate n ' '⟩

/-- What `printMessage` does before the line of a field: the header line and
the lines of the fields `fs1` declared before it. -/
def textBefore (name : String) (fs1 : List FieldDescriptor) (indent : Nat) : Printed :=
  (Printed.done (Repeat "    " indent ++ "message " ++ name ++ " \x7b\n")).andThen
    (forEachP (printField (Repeat "    " indent)) fs1)

/-- What `printMessage` does after the line of a field: the lines of the
fields `fs2` declared after it, the nested blocks and the closing line. -/
def textAfter (fs2 : List FieldDescriptor) (msgs : List MessageDescriptor)
    (enums : List EnumDescriptor) (indent : Nat) : Printed :=
  (forEachP (printField (Repeat "    " indent)) fs2).andThen
    ((printMessages msgs (indent + 1)).andThen
      (Printed.done
        (forEach (fun e => printEnum e (indent + 1)) enums ++ Repeat "    " indent ++ "\x7d \n")))

/-- What `printMessage` does between the header line and the closing line:
the field lines, the nested message blocks, the nested enum blocks. -/
def messageBody (m : MessageDescriptor) (indent : Nat) : Printed :=
  (forEachP (printField (Repeat "    " indent)) m.Fields).andThen
    ((printMessages m.Messages (indent + 1)).andThen
      (Printed.done (forEach (fun e => printEnum e (indent + 1)) m.Enums)))

/-! ## Sample descriptors -/

/-- A singular field of the given kind without explicit default, without the
`optional` keyword and not packed, as in `string name = 1;` of a proto3 file. -/
def plainField (name : String) (kind : Kind) : FieldDescriptor :=
  { Name := name, Kind := kind, Cardinality := Optional, HasOptionalKeyword := false,
    IsPacked := false, ExplicitDefault := none, EnumValues := [], DefaultEnumValue := none }

/-- A singular field with the explicit default `v`, as in
`optional int32 age = 2 [default = -5];` of a proto2 file. -/
def defaultField (name : String) (kind : Kind) (v : Value) : FieldDescriptor :=
  { plainField name kind with ExplicitDefault := some v }

/-- A repeated field, as in `repeated int32 xs = 1;`. -/
def repeatedField (name : String) (kind : Kind) : FieldDescriptor :=
  { plainField name kind with Cardinality := Repeated }

def statusEnum : EnumDescriptor :=
  { Name := "Status", Values := [⟨"UNKNOWN", 0⟩, ⟨"ACTIVE", 1⟩] }

/-- A field of the enum `Status` without explicit default, as in
`Status status = 3;` of a proto3 file: `DefaultEnumValue()` is `nil`. -/
def statusField : FieldDescriptor :=
  { plainField "status" EnumKind with EnumValues := statusEnum.Values }

/-- A field of the enum `Status` with the explicit default `ACTIVE`, as in
`optional Status status = 3 [default = ACTIVE];` of a proto2 file. -/
def activeField : FieldDescriptor :=
  { plainField "status" EnumKind with
    ExplicitDefault := some (.enumNumber 1), EnumValues := statusEnum.Values,
    DefaultEnumValue := some ⟨"ACTIVE", 1⟩ }

/-- The message `Outer` with the enum field `status` without explicit default
and the nested message `Inner`. -/
def failingTree : MessageDescriptor :=
  .mk "Outer" [statusField] [.mk "Inner" [] [] []] []

def personMessage : MessageDescriptor :=
  .mk "Person" [plainField "name" StringKind, plainField "age" Int32Kind] [] []

def personFile : FileDescriptor :=
  { Syntax := Proto3, Package := "demo", Path := "person.proto", Imports := [],
    Messages := [personMessage], Enums := [statusEnum], Services := [] }

/-- A file descriptor with no members, in package `pkg`. -/
def emptyFile (pkg path : String) : FileDescriptor :=
  { Syntax := Proto3, Package := pkg, Path := path, Imports := [], Messages := [],
    Enums := [], Services := [] }

/-- A parser that knows the two files `a.proto` and `b.proto`. -/
def twoFileParser (path : String) : Except String (List ParsedFile) :=
  if path = "a.proto" then .ok [⟨"a.proto", emptyFile "pa" "a.proto"⟩]
  else if path = "b.proto" then .ok [⟨"b.proto", emptyFile "pb" "b.proto"⟩]
  else .error "file not found"

/-- The registry after parsing `b.proto` and then `a.proto`. -/
def registryBA : ProtoParser :=
  (ParseProtoFile (ParseProtoFile (NewProtoParser twoFileParser) "b.proto").1 "a.proto").1

/-- The registry after parsing `a.proto` and then `b.proto`. -/
def registryAB : ProtoParser :=
  (ParseProtoFile (ParseProtoFile (NewProtoParser twoFileParser) "a.proto").1 "b.proto").1

/-- The block `PrintProtoInfo` writes for `a.proto` of `twoFileParser`. -/
def blockA : String :=
  "\n======== Proto File: a.proto ========\n" ++ "Syntax: proto3\n" ++ "Package: pa\n"
    ++ "Path: a.proto\n"

/-- The block `PrintProtoInfo` writes for `b.proto` of `twoFileParser`. -/
def blockB : String :=
  "\n======== Proto File: b.proto ========\n" ++ "Syntax: proto3\n" ++ "Package: pb\n"
    ++ "Path: b.proto\n"

/-- A service with the one method `Get (Req) returns (Resp)`. -/
def sampleService : ServiceDescriptor :=
  { Name := "Svc",
    Methods := [⟨"Get", .mk "Req" [] [] [], .mk "Resp" [] [] []⟩] }

/-- A file with one import, one message, one enum and one service. -/
def fullFile : FileDescriptor :=
  { Syntax := Proto2, Package := "demo", Path := "full.proto",
    Imports := [⟨"common.proto", "common.v1"⟩],
    Messages := [.mk "M" [] [] []], Enums := [statusEnum], Services := [sampleService] }

/-- A file `main.proto` that imports `common.proto`, a file of package
`common.v1`. -/
def importingFile : FileDescriptor :=
  { Syntax := Proto3, Package := "demo", Path := "main.proto",
    Imports := [⟨"common.proto", "common.v1"⟩], Messages := [], Enums := [],
    Services := [] }

/-- A string field whose explicit default holds a line break, as in
`optional string note = 1 [default = "a\nb"];` of a proto2 file. -/
def brokenLineField : FieldDescriptor :=
  defaultField "note" StringKind (.string "a\nb")

/-- A file without enums whose one message has a string field with the
explicit default `"x\nEnums:\n"`. -/
def titleInDefaultFile : FileDescriptor :=
  { Syntax := Proto2, Package := "demo", Path := "t.proto", Imports := [],
    Messages := [.mk "M" [defaultField "note" StringKind (.string "x\nEnums:\n")] [] []],
    Enums := [], Services := [] }

/-! ## Counting characters of the output -/

/-- The number of occurrences of the character `c` in the text `s`. -/
def countChar (c : Char) (s : String) : Nat := s.data.count c

/-- The sum of a list of numbers. -/
def total : List Nat → Nat
  | [] => 0
  | n :: ns => n + total ns

/-- The type names `getFieldType` can return. -/
def typeTokens : List String :=
  ["double", "float", "int64", "uint64", "int32", "fixed64", "fixed32", "bool", "string",
    "bytes", "uint32", "sfixed32", "sfixed64", "sint32", "sint64", "enum", "message",
    "unknown"]

/-! ## Lines of the output, in the words of the specification -/

/-- The text made of the given lines, each followed by a line break. -/
def unlines (ls : List String) : String := forEach (fun l => l ++ "\n") ls

/-- The lines of a text that end in a line break, in order; `cur` holds the
characters of the current line, last first. -/
def splitLines : List Char → List Char → List String
  | [], _ => []
  | c :: cs, cur =>
    if c = '\n' then String.mk cur.reverse :: splitLines cs []
    else splitLines cs (c :: cur)

/-- The lines of an output: the texts that end in a line break, each without
its line break. -/
def outputLines (s : String) : List String := splitLines s.data []

/-- The line of an enum value at depth `d`, without its line break: the
indent (`4*d` spaces and the two spaces of the format string), the name,
` = `, the number in decimal, `;`. -/
def enumValueLine (d : Nat) (v : EnumValueDescriptor) : String :=
  spaces (4 * d) ++ "  " ++ v.Name ++ " = " ++ toString v.Number ++ ";"

/-- The lines of an enum block at depth `d`: the header line, one line per
value in declaration order, the closing line. -/
def enumLines (e : EnumDescriptor) (d : Nat) : List String :=
  [spaces (4 * d) ++ "enum " ++ e.Name ++ " \x7b"]
    ++ e.Values.map (enumValueLine d)
    ++ [spaces (4 * d) ++ "\x7d"]

/-- The line of a method at depth `d`, without its line break. -/
def methodLine (d : Nat) (m : MethodDescriptor) : String :=
  spaces (4 * d) ++ "  " ++ "rpc " ++ m.Name ++ " (" ++ m.Input.Name ++ ") returns ("
    ++ m.Output.Name ++ ");"

/-- The lines of a service block at depth `d`: the header line, one line per
method in declaration order, the closing line. -/
def serviceLines (s : ServiceDescriptor) (d : Nat) : List String :=
  [spaces (4 * d) ++ "service " ++ s.Name ++ " \x7b"]
    ++ s.Methods.map (methodLine d)
    ++ [spaces (4 * d) ++ "\x7d"]

/-- The lines of the members of a list, one member after the other. -/
def linesOf {α : Type} (f : α → List String) : List α → List String
  | [] => []
  | x :: xs => f x ++ linesOf f xs

/-- The default clause of a field line with its closing `;`, without the
line break; nothing for an enum field without default enum value, for which
the code writes no clause. -/
def defaultClause (field : FieldDescriptor) : String :=
  if field.Kind = MessageKind then ";"
  else if field.Kind = EnumKind then
    match field.DefaultEnumValue with
    | none => ""
    | some ev => " = " ++ ev.Name ++ ";"
  else if field.Kind = StringKind then " = \"" ++ field.Default.Sprint ++ "\";"
  else " = " ++ field.Default.Sprint ++ ";"

/-- The text written for a field at depth `d`, without the line break. -/
def fieldLine (d : Nat) (field : FieldDescriptor) : String :=
  spaces (4 * d) ++ " [" ++ String.singleton (fieldAttr field) ++ "]" ++ getFieldType field
    ++ " " ++ field.Name ++ defaultClause field

mutual
/-- The lines of a message block at depth `d` that is printed without panic:
the header line, the field lines, the lines of the nested messages, the lines
of the nested enums, the closing line. -/
def messageLines : MessageDescriptor → Nat → List String
  | .mk name fields msgs enums, d =>
    [spaces (4 * d) ++ "message " ++ name ++ " \x7b"]
      ++ fields.map (fieldLine d)
      ++ messagesLines msgs (d + 1)
      ++ linesOf (fun e => enumLines e (d + 1)) enums
      ++ [spaces (4 * d) ++ "\x7d "]
/-- The lines of a sequence of message blocks at depth `d`. -/
def messagesLines : List MessageDescriptor → Nat → List String
  | [], _ => []
  | m :: ms, d => messageLines m d ++ messagesLines ms d
end

/-- The lines of a section of the per-file output: nothing for an empty
section, otherwise the title line and the lines of the members. -/
def sectionLines {α : Type} (title : String) (f : α → List String) :
    List α → List String
  | [] => []
  | x :: xs => title :: linesOf f (x :: xs)

/-- The lines `PrintProtoInfo` writes for one file that is printed without
panic: the header lines, then the sections Imports, Messages, Enums and
Services, each present when it has a member, the members at depth 1. -/
def fileLines (fileName : String) (fd : FileDescriptor) : List String :=
  ["", "======== Proto File: " ++ fileName ++ " ========",
    "Syntax: " ++ fd.Syntax.Sprint, "Package: " ++ fd.Package, "Path: " ++ fd.Path]
    ++ sectionLines "Imports:" (fun i => ["  - " ++ i.FullName]) fd.Imports
    ++ sectionLines "Messages:" (fun m => messageLines m 1) fd.Messages
    ++ sectionLines "Enums:" (fun e => enumLines e 1) fd.Enums
    ++ sectionLines "Services:" (fun s => serviceLines s 1) fd.Services

/-- The first two characters of a line. -/
def lead (s : String) : List Char := s.data.take 2

/-! ## Registry -/

/-- The keys of a map. -/
def FileMap.keys (m : FileMap) : List String := m.map Prod.fst

/-- The last descriptor named `k` in a parser result, if there is one. -/
def lastNamed : List ParsedFile → String → Option ParsedFile
  | [], _ => none
  | fd :: rest, k =>
    match lastNamed rest k with
    | some later => some later
    | none => if fd.GetName = k then some fd else none

/-- A parser whose result for every path holds two descriptors named
`a.proto`, in packages `first` and `second`, and one named `b.proto`. -/
def duplicateParser (_path : String) : Except String (List ParsedFile) :=
  .ok [⟨"a.proto", emptyFile "first" "a.proto"⟩, ⟨"b.proto", emptyFile "pb" "b.proto"⟩,
    ⟨"a.proto", emptyFile "second" "a.proto"⟩]

/-- A parser that fails on every path with the text `no such file`. -/
def failingParser (_path : String) : Except String (List ParsedFile) :=
  .error "no such file"

/-- A registry that holds `person.proto` and whose parser fails. -/
def failingRegistry : ProtoParser :=
  { parser := failingParser, Files := [("person.proto", personFile)] }

/-! ## Fields that make `printMessage` panic -/

/-- A field on which the field loop returns: every field but an enum field
without default enum value. -/
def panicFreeField (field : FieldDescriptor) : Bool :=
  decide (field.Kind ≠ EnumKind) || field.DefaultEnumValue.isSome

mutual
/-- A message tree in which every enum field has a default enum value, that
is, an explicit default. -/
def panicFree : MessageDescriptor → Bool
  | .mk _ fields msgs _ => fields.all panicFreeField && panicFreeAll msgs
/-- A list of such message trees. -/
def panicFreeAll : List MessageDescriptor → Bool
  | [] => true
  | m :: ms => panicFree m && panicFreeAll ms
end

/-! ## Depth of recursion -/

mutual
/-- `printMessage` run with room for at most `fuel` nested activations of
`printMessage` on the call stack: `none` when the room does not suffice. -/
def printMessageFuel : MessageDescriptor → Nat → Nat → Option Printed
  | .mk name fields msgs enums, indent, fuel =>
    match fuel with
    | 0 => none
    | rest + 1 =>
      let indentStr := Repeat "    " indent
      match (Printed.done (indentStr ++ "message " ++ name ++ " \x7b\n")).andThen
          (forEachP (printField indentStr) fields) with
      | .panic out => some (.panic out)
      | .done out =>
        match printMessagesFuel msgs (indent + 1) rest with
        | none => none
        | some nested =>
          some ((Printed.done out).andThen
            (nested.andThen
              ((Printed.done (forEach (fun e => printEnum e (indent + 1)) enums)).andThen
                (Printed.done (indentStr ++ "\x7d \n")))))
/-- The loop over the nested messages, with the same room. -/
def printMessagesFuel : List MessageDescriptor → Nat → Nat → Option Printed
  | [], _, _ => some (.done "")
  | m :: ms, indent, fuel =>
    match printMessageFuel m indent fuel with
    | none => none
    | some (.panic out) => some (.panic out)
    | some (.done out) =>
      match printMessagesFuel ms indent fuel with
      | none => none
      | some others => some ((Printed.done out).andThen others)
end

mutual
/-- The nesting depth of a message: 1 for a message without nested messages. -/
def nestingDepth : MessageDescriptor → Nat
  | .mk _ _ msgs _ => nestingDepths msgs + 1
/-- The largest nesting depth in a list of messages, 0 for the empty list. -/
def nestingDepths : List MessageDescriptor → Nat
  | [] => 0
  | m :: ms => max (nestingDepth m) (nestingDepths ms)
end

/-- A chain of `n + 1` messages, each nested in the one before. -/
def chain : Nat → MessageDescriptor
  | 0 => .mk "M" [] [] []
  | n + 1 => .mk "M" [] [chain n] []

/-! ## Texts without a given character, brace balance -/

/-- The first `n` characters of a text. -/
def prefixOf (s : String) (n : Nat) : String := ⟨s.data.take n⟩

/-- In every prefix of `s` the closing braces are at most `k` more than the
opening braces. -/
def bracketedFrom (k : Nat) (s : String) : Prop :=
  ∀ n : Nat, countChar '}' (prefixOf s n) ≤ k + countChar '{' (prefixOf s n)

/-- A well bracketed text: as many `{` as `}`, and in every prefix at least
as many `{` as `}`. -/
def wellBracketed (s : String) : Prop :=
  countChar '{' s = countChar '}' s
    ∧ ∀ n : Nat, countChar '}' (prefixOf s n) ≤ countChar '{' (prefixOf s n)

/-- A text that does not hold the character `c`. -/
def textAvoids (c : Char) (s : String) : Bool := countChar c s == 0

/-- An explicit default whose text does not hold the character `c`: the
condition bears on string defaults (and on the text carried for a
floating-point default). -/
def Value.avoids (c : Char) : Value → Bool
  | .string s => textAvoids c s
  | .float text => textAvoids c text
  | _ => true

/-- A field whose name, default and, for an enum field, default enum value
name do not hold the character `c`. -/
def fieldAvoids (c : Char) (field : FieldDescriptor) : Bool :=
  textAvoids c field.Name && field.Default.avoids c
    && (decide (field.Kind ≠ EnumKind)
      || match field.DefaultEnumValue with
        | some ev => textAvoids c ev.Name
        | none => true)

/-- An enum whose name and value names do not hold the character `c`. -/
def enumAvoids (c : Char) (e : EnumDescriptor) : Bool :=
  textAvoids c e.Name && e.Values.all (fun v => textAvoids c v.Name)

mutual
/-- A message tree in which no message, field, enum or enum-value name and no
string default holds the character `c`. -/
def messageAvoids (c : Char) : MessageDescriptor → Bool
  | .mk name fields msgs enums =>
    textAvoids c name && fields.all (fieldAvoids c) && messagesAvoid c msgs
      && enums.all (enumAvoids c)
/-- A list of such message trees. -/
def messagesAvoid (c : Char) : List MessageDescriptor → Bool
  | [] => true
  | m :: ms => messageAvoids c m && messagesAvoid c ms
end

/-- A message tree in which no message, field, enum or enum-value name and no
string default holds a `{`, a `}` or a line break. -/
def cleanMessage (m : MessageDescriptor) : Bool :=
  messageAvoids '{' m && messageAvoids '}' m && messageAvoids '\n' m

/-- A service whose name, method names and input and output message names do
not hold the character `c`. -/
def serviceAvoids (c : Char) (s : ServiceDescriptor) : Bool :=
  textAvoids c s.Name
    && s.Methods.all (fun m =>
      textAvoids c m.Name && textAvoids c m.Input.Name && textAvoids c m.Output.Name)

/-- A file, stored under `fileName`, in which no name, package, path or string
default holds the character `c`. -/
def fileAvoids (c : Char) (fileName : String) (fd : FileDescriptor) : Bool :=
  textAvoids c fileName && textAvoids c fd.Package && textAvoids c fd.Path
    && fd.Imports.all (fun i => textAvoids c i.FullName) && messagesAvoid c fd.Messages
    && fd.Enums.all (enumAvoids c) && fd.Services.all (serviceAvoids c)

mutual
/-- The number of messages plus enums in a message tree. -/
def blockCount : MessageDescriptor → Nat
  | .mk _ _ msgs enums => 1 + blockCounts msgs + enums.length
/-- The number of messages plus enums in a list of message trees. -/
def blockCounts : List MessageDescriptor → Nat
  | [] => 0
  | m :: ms => blockCount m + blockCounts ms
end

/-- A clean message tree with two nested messages and two enums, every enum
field with an explicit default. -/
def sampleTree : MessageDescriptor :=
  .mk "Outer"
    [defaultField "name" StringKind (.string "x"),
      { activeField with HasOptionalKeyword := true },
      defaultField "raw" BytesKind (.bytes [123, 125])]
    [.mk "Inner" [{ defaultField "n" Int64Kind (.int (-7)) with IsPacked := true }]
      [.mk "Leaf" [] [] []] [statusEnum]]
    [statusEnum]

/-- A clean message tree with the enum field `status` without explicit
default and the nested enum `Status`. -/
def cleanFailingTree : MessageDescriptor :=
  .mk "M" [statusField] [] [statusEnum]

/-- What holds of the braces a run wrote, where a run that returns writes `k`
blocks: no prefix of the text has more `}` than `{`; a run that returned wrote
`k` of each brace; a run that ended in a panic wrote at most `k` opening braces
and at least `slack` fewer closing than opening braces. -/
def bracesUpTo (k slack : Nat) (r : Printed) : Prop :=
  bracketedFrom 0 r.text
    ∧ (r.returns = true → countChar '{' r.text = k ∧ countChar '}' r.text = k)
    ∧ (r.returns = false →
        countChar '}' r.text + slack ≤ countChar '{' r.text ∧ countChar '{' r.text ≤ k)

/-! ## Shared lemmas -/

theorem forEach_append {α : Type} (body : α → String) (xs ys : List α) :
    forEach body (xs ++ ys) = forEach body xs ++ forEach body ys := by
  induction xs with
  | nil => simp [forEach]
  | cons x xs ih => simp [forEach, ih, String.append_assoc]

theorem spaces_add (a b : Nat) : spaces (a + b) = spaces a ++ spaces b := by
  show (⟨List.replicate (a + b) ' '⟩ : String)
    = (⟨List.replicate a ' ' ++ List.replicate b ' '⟩ : String)
  rw [List.replicate_add]

theorem Repeat_four_spaces (d : Nat) : Repeat "    " d = spaces (4 * d) := by
  induction d with
  | zero => rfl
  | succ n ih =>
    have h : 4 * (n + 1) = 4 + 4 * n := by ring
    rw [Repeat, ih, h, spaces_add]
    rfl

theorem Printed.done_andThen_done (a b : String) :
    (Printed.done a).andThen (Printed.done b) = Printed.done (a ++ b) := rfl

theorem Printed.done_andThen_panic (a b : String) :
    (Printed.done a).andThen (Printed.panic b) = Printed.panic (a ++ b) := rfl

theorem Printed.panic_andThen (a : String) (r : Printed) :
    (Printed.panic a).andThen r = Printed.panic a := rfl

theorem Printed.andThen_assoc (a b c : Printed) :
    (a.andThen b).andThen c = a.andThen (b.andThen c) := by
  cases a <;> cases b <;> cases c <;> simp only [Printed.andThen, String.append_assoc]

theorem Printed.done_empty_andThen (r : Printed) : (Printed.done "").andThen r = r := by
  cases r <;> simp only [Printed.andThen, String.empty_append]

theorem Printed.andThen_done_empty (r : Printed) : r.andThen (Printed.done "") = r := by
  cases r <;> simp only [Printed.andThen, String.append_empty]

theorem Printed.eq_done_text (r : Printed) (h : r.returns = true) :
    r = Printed.done r.text := by
  cases r with
  | done out => rfl
  | panic out => exact absurd h (by simp [Printed.returns])

theorem forEachP_append {α : Type} (body : α → Printed) (xs ys : List α) :
    forEachP body (xs ++ ys) = (forEachP body xs).andThen (forEachP body ys) := by
  induction xs with
  | nil => rw [List.nil_append, forEachP, Printed.done_empty_andThen]
  | cons x xs ih => rw [List.cons_append, forEachP, forEachP, ih, Printed.andThen_assoc]

theorem forEachP_done {α : Type} (body : α → Printed) (f : α → String) (xs : List α)
    (h : ∀ x ∈ xs, body x = Printed.done (f x)) :
    forEachP body xs = Printed.done (forEach f xs) := by
  induction xs with
  | nil => rfl
  | cons x xs ih =>
    rw [forEachP, h x (List.mem_cons_self _ _),
      ih (fun y hy => h y (List.mem_cons_of_mem _ hy)), Printed.done_andThen_done, forEach]

theorem printMessages_eq_forEachP (ms : List MessageDescriptor) (d : Nat) :
    printMessages ms d = forEachP (fun m => printMessage m d) ms := by
  induction ms with
  | nil => simp [printMessages, forEachP]
  | cons m ms ih => simp [printMessages, forEachP, ih]

theorem printMessage_at_field (name : String) (fs1 : List FieldDescriptor)
    (field : FieldDescriptor) (fs2 : List FieldDescriptor) (msgs : List MessageDescriptor)
    (enums : List EnumDescriptor) (d : Nat) :
    printMessage (.mk name (fs1 ++ field :: fs2) msgs enums) d
      = (textBefore name fs1 d).andThen
          ((printField (Repeat "    " d) field).andThen (textAfter fs2 msgs enums d)) := by
  simp only [printMessage, textBefore, textAfter, forEachP_append, forEachP,
    Printed.andThen_assoc, Printed.done_andThen_done, String.append_assoc]

/-! ## Field kinds and field lines -/

/-- C1: `getFieldType` is total and returns the canonical lowercase token of
each kind of the defined set; every kind outside the set, the group kind among
them, gives "unknown". -/
theorem getFieldType_canonical (field : FieldDescriptor) :
    (field.Kind ∉ definedKinds → getFieldType field = "unknown")
    ∧ (field.Kind = GroupKind → getFieldType field = "unknown")
    ∧ (field.Kind = DoubleKind → getFieldType field = "double")
    ∧ (field.Kind = FloatKind → getFieldType field = "float")
    ∧ (field.Kind = Int32Kind → getFieldType field = "int32")
    ∧ (field.Kind = Int64Kind → getFieldType field = "int64")
    ∧ (field.Kind = Uint32Kind → getFieldType field = "uint32")
    ∧ (field.Kind = Uint64Kind → getFieldType field = "uint64")
    ∧ (field.Kind = Sint32Kind → getFieldType field = "sint32")
    ∧ (field.Kind = Sint64Kind → getFieldType field = "sint64")
    ∧ (field.Kind = Fixed32Kind → getFieldType field = "fixed32")
    ∧ (field.Kind = Fixed64Kind → getFieldType field = "fixed64")
    ∧ (field.Kind = Sfixed32Kind → getFieldType field = "sfixed32")
    ∧ (field.Kind = Sfixed64Kind → getFieldType field = "sfixed64")
    ∧ (field.Kind = BoolKind → getFieldType field = "bool")
    ∧ (field.Kind = StringKind → getFieldType field = "string")
    ∧ (field.Kind = BytesKind → getFieldType field = "bytes")
    ∧ (field.Kind = EnumKind → getFieldType field = "enum")
    ∧ (field.Kind = MessageKind → getFieldType field = "message") := by
  refine ⟨?_, ?_, ?_, ?_, ?_, ?_, ?_, ?_, ?_, ?_, ?_, ?_, ?_, ?_, ?_, ?_, ?_, ?_, ?_⟩
  · intro h
    simp only [definedKinds, List.mem_cons, List.mem_singleton, not_or, List.not_mem_nil,
      or_false] at h
    obtain ⟨h1, h2, h3, h4, h5, h6, h7, h8, h9, h10, h11, h12, h13, h14, h15, h16, h17⟩ := h
    simp only [getFieldType, h1, h2, h3, h4, h5, h6, h7, h8, h9, h10, h11, h12, h13, h14,
      h15, h16, h17, if_false]
  all_goals
    intro h
    rw [getFieldType, h]
    decide

/-- The theorem of C1 at two kinds outside the defined set (the group kind
and the value 99) and at the double kind. -/
theorem getFieldType_canonical_witness :
    getFieldType (plainField "g" GroupKind) = "unknown"
    ∧ getFieldType (plainField "x" ⟨99⟩) = "unknown"
    ∧ getFieldType (plainField "d" DoubleKind) = "double" :=
  ⟨(getFieldType_canonical _).2.1 rfl,
    (getFieldType_canonical _).1 (by decide),
    (getFieldType_canonical _).2.2.1 rfl⟩

/-- C2: the character printed between the square brackets of a field line of
`printMessage` is given by the two flags alone: (optional, not packed) gives
`o`, (not optional, packed) gives `+`, (optional, packed) gives `+`,
(neither) gives `*`. The line of the field, at its place in the output of
`printMessage`, carries that character; two fields with the same flags carry
the same character whatever their kind, name or default. -/
theorem printMessage_attr_by_flags (name : String) (fs1 : List FieldDescriptor)
    (field : FieldDescriptor) (fs2 : List FieldDescriptor) (msgs : List MessageDescriptor)
    (enums : List EnumDescriptor) (d : Nat) :
    printMessage (.mk name (fs1 ++ field :: fs2) msgs enums) d
        = (textBefore name fs1 d).andThen
            ((Printed.done
                (spaces (4 * d) ++ " ["
                  ++ String.singleton (specMarker field.HasOptionalKeyword field.IsPacked)
                  ++ "]" ++ getFieldType field ++ " " ++ field.Name)).andThen
              ((printFieldDefault field).andThen (textAfter fs2 msgs enums d)))
    ∧ fieldAttr field = specMarker field.HasOptionalKeyword field.IsPacked
    ∧ (fieldAttr field = 'o' ∨ fieldAttr field = '+' ∨ fieldAttr field = '*')
    ∧ specMarker true false = 'o' ∧ specMarker false true = '+'
    ∧ specMarker true true = '+' ∧ specMarker false false = '*'
    ∧ ∀ other : FieldDescriptor, other.HasOptionalKeyword = field.HasOptionalKeyword →
        other.IsPacked = field.IsPacked → fieldAttr other = fieldAttr field := by
  have hattr : fieldAttr field = specMarker field.HasOptionalKeyword field.IsPacked := by
    unfold fieldAttr specMarker
    cases field.HasOptionalKeyword <;> cases field.IsPacked <;> rfl
  refine ⟨?_, hattr, ?_, rfl, rfl, rfl, rfl, ?_⟩
  · rw [printMessage_at_field, printField, Repeat_four_spaces, hattr, Printed.andThen_assoc]
  · rw [hattr]
    cases field.HasOptionalKeyword <;> cases field.IsPacked <;> simp [specMarker]
  · intro other h1 h2
    simp only [fieldAttr, h1, h2]

/-- C3: a field of message kind, whatever default is stored on it, is printed
by `printMessage` as the line made of the indent of depth `d` (`4*d` spaces and
the one space of the format string), the bracketed marker, the token
`message`, a space, the field name and `;` right after the name, with no
default clause. -/
theorem printMessage_message_field_no_default (name : String) (fs1 : List FieldDescriptor)
    (field : FieldDescriptor) (fs2 : List FieldDescriptor) (msgs : List MessageDescriptor)
    (enums : List EnumDescriptor) (d : Nat) (hk : field.Kind = MessageKind) :
    printMessage (.mk name (fs1 ++ field :: fs2) msgs enums) d
      = (textBefore name fs1 d).andThen
          ((Printed.done
              (spaces (4 * d) ++ " [" ++ String.singleton (fieldAttr field) ++ "]" ++ "message"
                ++ " " ++ field.Name ++ ";\n")).andThen
            (textAfter fs2 msgs enums d)) := by
  have hd : printFieldDefault field = Printed.done ";\n" := by
    simp [printFieldDefault, hk]
  have ht : getFieldType field = "message" := by
    rw [getFieldType, hk]
    decide
  rw [printMessage_at_field, printField, Repeat_four_spaces, hd, ht,
    Printed.done_andThen_done]

/-- The theorem of C3 on a message-kind field that stores a string default:
the default is not printed. -/
theorem printMessage_message_field_no_default_witness :
    printMessage (.mk "M" [defaultField "inner" MessageKind (.string "dflt")] [] []) 1
      = Printed.done ("    message M \x7b\n" ++ "     [*]message inner;\n" ++ "    \x7d \n") :=
  (printMessage_message_field_no_default "M" [] _ [] [] [] 1 rfl).trans (by decide)

/-- C4: a field of string kind whose default is the string `s` is printed by
`printMessage` as a line that ends with the clause ` = "s";`, the default
between one pair of double quotes; for the empty default the clause is
` = "";`. -/
theorem printMessage_string_field_default (name : String) (fs1 : List FieldDescriptor)
    (field : FieldDescriptor) (fs2 : List FieldDescriptor) (msgs : List MessageDescriptor)
    (enums : List EnumDescriptor) (d : Nat) (s : String) (hk : field.Kind = StringKind)
    (hs : field.Default = Value.string s) :
    printMessage (.mk name (fs1 ++ field :: fs2) msgs enums) d
      = (textBefore name fs1 d).andThen
          ((Printed.done
              (spaces (4 * d) ++ " [" ++ String.singleton (fieldAttr field) ++ "]" ++ "string"
                ++ " " ++ field.Name ++ " = \"" ++ s ++ "\";\n")).andThen
            (textAfter fs2 msgs enums d)) := by
  have hd : printFieldDefault field = Printed.done (" = \"" ++ s ++ "\";\n") := by
    have h1 : ¬ StringKind = MessageKind := by decide
    have h2 : ¬ StringKind = EnumKind := by decide
    simp only [printFieldDefault, hk, hs, h1, h2, if_false, if_true, Value.Sprint]
  have ht : getFieldType field = "string" := by
    rw [getFieldType, hk]
    decide
  rw [printMessage_at_field, printField, Repeat_four_spaces, hd, ht,
    Printed.done_andThen_done]
  simp only [String.append_assoc]

/-- The theorem of C4 on a string field without explicit default, whose
default is the empty string: the clause ` = "";` is printed. -/
theorem printMessage_string_field_default_witness :
    printMessage (.mk "M" [plainField "name" StringKind] [] []) 1
      = Printed.done ("    message M \x7b\n" ++ "     [*]string name = \"\";\n" ++ "    \x7d \n") :=
  (printMessage_string_field_default "M" [] (plainField "name" StringKind) [] [] [] 1 ""
    rfl rfl).trans (by decide)

/-! ## Character counts -/

theorem countChar_append (c : Char) (a b : String) :
    countChar c (a ++ b) = countChar c a + countChar c b := by
  simp only [countChar, String.data_append, List.count_append]

theorem countChar_empty (c : Char) : countChar c "" = 0 := rfl

theorem countChar_spaces (c : Char) (hc : c ≠ ' ') (n : Nat) : countChar c (spaces n) = 0 := by
  simp only [countChar, spaces]
  apply List.count_eq_zero_of_not_mem
  intro h
  exact hc (List.eq_of_mem_replicate h)

theorem countChar_Repeat (c : Char) (hc : c ≠ ' ') (d : Nat) :
    countChar c (Repeat "    " d) = 0 := by
  rw [Repeat_four_spaces]
  exact countChar_spaces c hc _

theorem countChar_forEach {α : Type} (c : Char) (body : α → String) (xs : List α) :
    countChar c (forEach body xs) = total (xs.map (fun x => countChar c (body x))) := by
  induction xs with
  | nil => rfl
  | cons x xs ih => simp only [forEach, countChar_append, ih, List.map_cons, total]

theorem total_const {α : Type} (f : α → Nat) (k : Nat) (xs : List α)
    (h : ∀ x ∈ xs, f x = k) : total (xs.map f) = xs.length * k := by
  induction xs with
  | nil => simp [total]
  | cons x xs ih =>
    have hx : f x = k := h x (List.mem_cons_self _ _)
    have hxs : ∀ y ∈ xs, f y = k := fun y hy => h y (List.mem_cons_of_mem _ hy)
    simp only [List.map_cons, total, ih hxs, hx, List.length_cons]
    ring

theorem digitChar_mem :
    ∀ k : Nat, k < 10 →
      Nat.digitChar k ∈ ['0', '1', '2', '3', '4', '5', '6', '7', '8', '9'] := by
  decide

theorem toDigitsCore_mem (fuel : Nat) :
    ∀ (n : Nat) (ds : List Char) (c : Char), c ∈ Nat.toDigitsCore 10 fuel n ds →
      c ∈ ds ∨ c ∈ ['0', '1', '2', '3', '4', '5', '6', '7', '8', '9'] := by
  induction fuel with
  | zero =>
    intro n ds c h
    exact Or.inl h
  | succ fuel ih =>
    intro n ds c h
    have hd := digitChar_mem (n % 10) (Nat.mod_lt _ (by decide))
    simp only [Nat.toDigitsCore] at h
    split_ifs at h with h0
    · rcases List.mem_cons.mp h with h1 | h1
      · right
        rw [h1]
        exact hd
      · exact Or.inl h1
    · rcases ih _ _ _ h with h1 | h1
      · rcases List.mem_cons.mp h1 with h2 | h2
        · right
          rw [h2]
          exact hd
        · exact Or.inl h2
      · exact Or.inr h1

theorem countChar_natToString (c : Char)
    (hc : c ∉ ['0', '1', '2', '3', '4', '5', '6', '7', '8', '9']) (n : Nat) :
    countChar c (toString n) = 0 := by
  show List.count c (Nat.toDigits 10 n) = 0
  apply List.count_eq_zero_of_not_mem
  intro h
  rcases toDigitsCore_mem _ _ _ _ h with h1 | h1
  · exact absurd h1 (List.not_mem_nil _)
  · exact hc h1

theorem countChar_intToString (c : Char)
    (hc : c ∉ ['0', '1', '2', '3', '4', '5', '6', '7', '8', '9']) (hm : c ≠ '-') (n : Int) :
    countChar c (toString n) = 0 := by
  cases n with
  | ofNat m => exact countChar_natToString c hc m
  | negSucc m =>
    show countChar c ("-" ++ toString (Nat.succ m)) = 0
    rw [countChar_append, countChar_natToString c hc]
    simp only [countChar, Nat.add_zero]
    apply List.count_eq_zero_of_not_mem
    intro h
    exact hm (List.mem_singleton.mp h)

/-! ## Enum fields and scalar fields -/

theorem printField_enum_none (indentStr : String) (field : FieldDescriptor)
    (hk : field.Kind = EnumKind) (hn : field.DefaultEnumValue = none) :
    printField indentStr field
      = Printed.panic (indentStr ++ " [" ++ String.singleton (fieldAttr field) ++ "]" ++ "enum"
          ++ " " ++ field.Name) := by
  have h1 : ¬ EnumKind = MessageKind := by decide
  have hd : printFieldDefault field = Printed.panic "" := by
    simp only [printFieldDefault, hk, hn, h1, if_false, if_true]
  have ht : getFieldType field = "enum" := by
    rw [getFieldType, hk]
    decide
  rw [printField, hd, ht, Printed.done_andThen_panic, String.append_empty]

theorem printField_enum_some (indentStr : String) (field : FieldDescriptor)
    (ev : EnumValueDescriptor) (hk : field.Kind = EnumKind)
    (hs : field.DefaultEnumValue = some ev) :
    printField indentStr field
      = Printed.done (indentStr ++ " [" ++ String.singleton (fieldAttr field) ++ "]" ++ "enum"
          ++ " " ++ field.Name ++ " = " ++ ev.Name ++ ";\n") := by
  have h1 : ¬ EnumKind = MessageKind := by decide
  have hd : printFieldDefault field = Printed.done (" = " ++ ev.Name ++ ";\n") := by
    simp only [printFieldDefault, hk, hs, h1, if_false, if_true]
  have ht : getFieldType field = "enum" := by
    rw [getFieldType, hk]
    decide
  rw [printField, hd, ht, Printed.done_andThen_done]
  simp only [String.append_assoc]

set_option maxRecDepth 100000 in
/-- C5 (code at the failing input): for an enum field without default enum
value, which is every enum field without explicit default, `printMessage`
writes the line up to the field name and panics at parse.go:121; no default
clause, no later field, no nested block and no closing line is written. For
an enum field with default enum value `ev` the clause is ` = ` followed by the
name of `ev` and `;`. The message `M` with the field `status` of the enum
`Status` ends in the panic after `[*]enum status`. -/
theorem printMessage_enum_field_default :
    (∀ (name : String) (fs1 : List FieldDescriptor) (field : FieldDescriptor)
        (fs2 : List FieldDescriptor) (msgs : List MessageDescriptor)
        (enums : List EnumDescriptor) (d : Nat),
        field.Kind = EnumKind → field.DefaultEnumValue = none →
        printMessage (.mk name (fs1 ++ field :: fs2) msgs enums) d
          = (textBefore name fs1 d).andThen
              (Printed.panic
                (spaces (4 * d) ++ " [" ++ String.singleton (fieldAttr field) ++ "]" ++ "enum"
                  ++ " " ++ field.Name)))
    ∧ (∀ (name : String) (fs1 : List FieldDescriptor) (field : FieldDescriptor)
        (fs2 : List FieldDescriptor) (msgs : List MessageDescriptor)
        (enums : List EnumDescriptor) (d : Nat) (ev : EnumValueDescriptor),
        field.Kind = EnumKind → field.DefaultEnumValue = some ev →
        printMessage (.mk name (fs1 ++ field :: fs2) msgs enums) d
          = (textBefore name fs1 d).andThen
              ((Printed.done
                  (spaces (4 * d) ++ " [" ++ String.singleton (fieldAttr field) ++ "]" ++ "enum"
                    ++ " " ++ field.Name ++ " = " ++ ev.Name ++ ";\n")).andThen
                (textAfter fs2 msgs enums d)))
    ∧ printMessage (.mk "M" [statusField] [] []) 1
        = Printed.panic ("    message M \x7b\n" ++ "     [*]enum status")
    ∧ printMessage (.mk "M" [activeField] [] []) 1
        = Printed.done ("    message M \x7b\n" ++ "     [*]enum status = ACTIVE;\n" ++ "    \x7d \n") := by
  refine ⟨?_, ?_, ?_, ?_⟩
  · intro name fs1 field fs2 msgs enums d hk hn
    rw [printMessage_at_field, printField_enum_none _ field hk hn, Repeat_four_spaces,
      Printed.panic_andThen]
  · intro name fs1 field fs2 msgs enums d ev hk hs
    rw [printMessage_at_field, printField_enum_some _ field ev hk hs, Repeat_four_spaces]
  · decide
  · decide

set_option maxRecDepth 100000 in
/-- Counterexample to C6: the repeated int32 field `xs` has no explicit
default and `Default()` returns no value for it; its line is
`[*]int32 xs = <nil>;`, whose clause is not ` = 0;` and is no decimal
literal. -/
theorem printMessage_scalar_default_counterexample :
    printMessage (.mk "M" [repeatedField "xs" Int32Kind] [] []) 1
        = Printed.done ("    message M \x7b\n" ++ "     [*]int32 xs = <nil>;\n" ++ "    \x7d \n")
    ∧ ¬ (∀ field : FieldDescriptor, field.Kind ∈ integerKinds →
          field.ExplicitDefault = none → printFieldDefault field = Printed.done " = 0;\n")
    ∧ ∀ n : Int,
        printFieldDefault (repeatedField "xs" Int32Kind)
          ≠ Printed.done (" = " ++ toString n ++ ";\n") := by
  refine ⟨by decide, ?_, ?_⟩
  · intro h
    have h2 := h (repeatedField "xs" Int32Kind) (by decide) rfl
    revert h2
    decide
  · intro n h
    have h1 : printFieldDefault (repeatedField "xs" Int32Kind)
        = Printed.done " = <nil>;\n" := by decide
    rw [h1] at h
    have h2 : countChar '<' " = <nil>;\n" = countChar '<' (" = " ++ toString n ++ ";\n") := by
      rw [Printed.done.inj h]
    rw [countChar_append, countChar_append,
      countChar_intToString '<' (by decide) (by decide)] at h2
    revert h2
    decide

/-- C6 as amended: a field whose kind is neither message, enum nor string is
printed by `printMessage` with the default clause ` = v;`, where `v` is the
text of the value `Default()` returns, without quotes. For a field that is not
repeated and has no explicit default `v` is `0` for the integer kinds and
`false` for bool; for an explicit integer default it is the signed or
unsigned decimal literal, for an explicit bool default `true` or `false`; for
a repeated field, for which `Default()` returns no value, it is `<nil>`. -/
theorem printMessage_scalar_field_default (name : String) (fs1 : List FieldDescriptor)
    (field : FieldDescriptor) (fs2 : List FieldDescriptor) (msgs : List MessageDescriptor)
    (enums : List EnumDescriptor) (d : Nat) (hm : field.Kind ≠ MessageKind)
    (he : field.Kind ≠ EnumKind) (hs : field.Kind ≠ StringKind) :
    printMessage (.mk name (fs1 ++ field :: fs2) msgs enums) d
        = (textBefore name fs1 d).andThen
            ((Printed.done
                (spaces (4 * d) ++ " [" ++ String.singleton (fieldAttr field) ++ "]"
                  ++ getFieldType field ++ " " ++ field.Name ++ " = " ++ field.Default.Sprint
                  ++ ";\n")).andThen
              (textAfter fs2 msgs enums d))
    ∧ (field.ExplicitDefault = none → field.Cardinality ≠ Repeated →
        field.Kind ∈ integerKinds → field.Default.Sprint = "0")
    ∧ (field.ExplicitDefault = none → field.Cardinality ≠ Repeated →
        field.Kind = BoolKind → field.Default.Sprint = "false")
    ∧ (field.ExplicitDefault = none → field.Cardinality = Repeated →
        field.Default.Sprint = "<nil>")
    ∧ (∀ n : Int, field.ExplicitDefault = some (Value.int n) →
        field.Default.Sprint = toString n)
    ∧ (∀ n : Nat, field.ExplicitDefault = some (Value.uint n) →
        field.Default.Sprint = toString n)
    ∧ (field.ExplicitDefault = some (Value.bool true) → field.Default.Sprint = "true")
    ∧ (field.ExplicitDefault = some (Value.bool false) → field.Default.Sprint = "false") := by
  have hd : printFieldDefault field
      = Printed.done (" = " ++ field.Default.Sprint ++ ";\n") := by
    simp only [printFieldDefault, hm, he, hs, if_false]
  refine ⟨?_, ?_, ?_, ?_, ?_, ?_, ?_, ?_⟩
  · rw [printMessage_at_field, printField, Repeat_four_spaces, hd, Printed.done_andThen_done]
    simp only [String.append_assoc]
  · intro h1 h2 h3
    simp only [integerKinds, List.mem_cons, List.mem_singleton, List.not_mem_nil,
      or_false] at h3
    rcases h3 with h | h | h | h | h | h | h | h | h | h <;>
      · simp only [FieldDescriptor.Default, h1, h, if_neg h2]
        rfl
  · intro h1 h2 h3
    simp only [FieldDescriptor.Default, h1, h3, if_neg h2]
    rfl
  · intro h1 h2
    simp only [FieldDescriptor.Default, h1, h2]
    rfl
  · intro n h
    simp only [FieldDescriptor.Default, h, Value.Sprint]
  · intro n h
    simp only [FieldDescriptor.Default, h, Value.Sprint]
  · intro h
    simp only [FieldDescriptor.Default, h]
    rfl
  · intro h
    simp only [FieldDescriptor.Default, h]
    rfl

set_option maxRecDepth 100000 in
/-- The theorem of C6 as amended on an int32 field with the explicit default
-5, on a bool field and a uint64 field without explicit default, and on a
repeated bool field. -/
theorem printMessage_scalar_field_default_witness :
    printMessage (.mk "M" [defaultField "age" Int32Kind (.int (-5))] [] []) 1
      = Printed.done ("    message M \x7b\n" ++ "     [*]int32 age = -5;\n" ++ "    \x7d \n")
    ∧ printMessage (.mk "M" [plainField "ok" BoolKind] [] []) 2
      = Printed.done
          ("        message M \x7b\n" ++ "         [*]bool ok = false;\n" ++ "        \x7d \n")
    ∧ (plainField "n" Uint64Kind).Default.Sprint = "0"
    ∧ (repeatedField "bs" BoolKind).Default.Sprint = "<nil>" :=
  ⟨(printMessage_scalar_field_default "M" [] (defaultField "age" Int32Kind (.int (-5))) [] []
      [] 1 (by decide) (by decide) (by decide)).1.trans (by decide),
    (printMessage_scalar_field_default "M" [] (plainField "ok" BoolKind) [] [] [] 2
      (by decide) (by decide) (by decide)).1.trans (by decide),
    (printMessage_scalar_field_default "M" [] (plainField "n" Uint64Kind) [] [] [] 1
      (by decide) (by decide) (by decide)).2.1 rfl (by decide) (by decide),
    (printMessage_scalar_field_default "M" [] (repeatedField "bs" BoolKind) [] [] [] 1
      (by decide) (by decide) (by decide)).2.2.2.1 rfl rfl⟩

/-! ## Whole-registry output -/

theorem perm_pair {α : Type} {l : List α} {x y : α} (h : l.Perm [x, y]) :
    l = [x, y] ∨ l = [y, x] := by
  have hlen := h.length_eq
  match l, hlen with
  | [u, v], _ =>
    have hu : u ∈ [x, y] := h.subset (List.mem_cons_self _ _)
    simp only [List.mem_cons, List.mem_singleton, List.not_mem_nil, or_false] at hu
    rcases hu with rfl | rfl
    · have h2 := (List.perm_cons _).mp h
      rw [List.perm_singleton.mp h2]
      exact Or.inl rfl
    · have h2 := (List.perm_cons _).mp (h.trans (List.Perm.swap _ _ _))
      rw [List.perm_singleton.mp h2]
      exact Or.inr rfl

theorem printMessage_eq (m : MessageDescriptor) (d : Nat) :
    printMessage m d
      = (Printed.done (Repeat "    " d ++ "message " ++ m.Name ++ " \x7b\n")).andThen
          ((messageBody m d).andThen (Printed.done (Repeat "    " d ++ "\x7d \n"))) := by
  cases m
  simp only [printMessage, messageBody, MessageDescriptor.Name, MessageDescriptor.Fields,
    MessageDescriptor.Messages, MessageDescriptor.Enums, Printed.andThen_assoc]

theorem printMessages_append (ms1 ms2 : List MessageDescriptor) (d : Nat) :
    printMessages (ms1 ++ ms2) d = (printMessages ms1 d).andThen (printMessages ms2 d) := by
  rw [printMessages_eq_forEachP, printMessages_eq_forEachP, printMessages_eq_forEachP,
    forEachP_append]

set_option maxRecDepth 100000 in
/-- C7: on the registry that holds the one file `person.proto` (package demo,
syntax proto3, no imports, no services, message Person with the fields name
and age, enum Status with UNKNOWN=0 and ACTIVE=1), every run of
`PrintProtoInfo` returns after writing exactly: the header line of
person.proto, the Syntax, Package and Path lines, `Messages:`, the Person
block, `Enums:`, the Status block; no `Imports:` and no `Services:` line. -/
theorem PrintProtoInfo_person (parser : String → Except String (List ParsedFile))
    (out : Printed) :
    PrintProtoInfo { parser := parser, Files := [("person.proto", personFile)] } out
      ↔ out = Printed.done ("\n"
          ++ "======== Proto File: person.proto ========\n"
          ++ "Syntax: proto3\n"
          ++ "Package: demo\n"
          ++ "Path: person.proto\n"
          ++ "Messages:\n"
          ++ "    message Person \x7b\n"
          ++ "     [*]string name = \"\";\n"
          ++ "     [*]int32 age = 0;\n"
          ++ "    \x7d \n"
          ++ "Enums:\n"
          ++ "    enum Status \x7b\n"
          ++ "      UNKNOWN = 0;\n"
          ++ "      ACTIVE = 1;\n"
          ++ "    \x7d\n") := by
  constructor
  · rintro ⟨visit, hv, rfl⟩
    have hv2 : visit = [("person.proto", personFile)] := List.perm_singleton.mp hv
    rw [hv2]
    decide
  · intro h
    refine ⟨[("person.proto", personFile)], List.Perm.refl _, ?_⟩
    rw [h]
    decide

theorem ParseProtoFile_ok (p : ProtoParser) (filePath : String) (fds : List ParsedFile)
    (h : p.parser filePath = .ok fds) :
    ParseProtoFile p filePath
      = ({ p with
            Files := (fds.foldl (fun files fd => files.set fd.GetName fd.UnwrapFile)
              p.Files) }, none) := by
  simp only [ParseProtoFile, h]

theorem PrintProtoInfoIn_pair (x y : String × FileDescriptor) :
    PrintProtoInfoIn [x, y] = (printFileInfo x.1 x.2).andThen (printFileInfo y.1 y.2) := by
  simp only [PrintProtoInfoIn, forEachP, Printed.andThen_done_empty]

theorem PrintProtoInfo_pair (parser : String → Except String (List ParsedFile))
    (x y : String × FileDescriptor) (out : Printed) :
    PrintProtoInfo { parser := parser, Files := [x, y] } out
      ↔ (out = (printFileInfo x.1 x.2).andThen (printFileInfo y.1 y.2)
          ∨ out = (printFileInfo y.1 y.2).andThen (printFileInfo x.1 x.2)) := by
  constructor
  · rintro ⟨visit, hv, rfl⟩
    rcases perm_pair hv with h | h
    · left
      rw [h, PrintProtoInfoIn_pair]
    · right
      rw [h, PrintProtoInfoIn_pair]
  · rintro (h | h)
    · exact ⟨[x, y], List.Perm.refl _, by rw [h, PrintProtoInfoIn_pair]⟩
    · exact ⟨[y, x], List.Perm.swap _ _ _, by rw [h, PrintProtoInfoIn_pair]⟩

theorem registry_two_inserts (parser : String → Except String (List ParsedFile))
    (pa pb a b : String) (fa fb : FileDescriptor) (hab : a ≠ b)
    (hpa : parser pa = .ok [⟨a, fa⟩]) (hpb : parser pb = .ok [⟨b, fb⟩]) :
    (ParseProtoFile (ParseProtoFile (NewProtoParser parser) pb).1 pa).1
      = { parser := parser, Files := [(b, fb), (a, fa)] } := by
  have h1 : (ParseProtoFile (NewProtoParser parser) pb).1
      = { parser := parser, Files := [(b, fb)] } := by
    rw [ParseProtoFile_ok _ _ _ (by simpa [NewProtoParser] using hpb)]
    simp [NewProtoParser, FileMap.set]
  rw [h1, ParseProtoFile_ok _ _ _ (by simpa using hpa)]
  simp [FileMap.set, hab.symm]

set_option maxRecDepth 100000 in
/-- Counterexample to C8: after `b.proto` and then `a.proto` were parsed into
the registry, a run of `PrintProtoInfo` writes the block of `b.proto` before
the block of `a.proto`. -/
theorem PrintProtoInfo_sorted_counterexample :
    PrintProtoInfo registryBA (Printed.done (blockB ++ blockA))
    ∧ ¬ (∀ out : Printed, PrintProtoInfo registryBA out →
          out = Printed.done (blockA ++ blockB)) := by
  have hrun : PrintProtoInfo registryBA (Printed.done (blockB ++ blockA)) :=
    ⟨[("b.proto", emptyFile "pb" "b.proto"), ("a.proto", emptyFile "pa" "a.proto")],
      List.Perm.refl _, by decide⟩
  refine ⟨hrun, fun h => ?_⟩
  have h2 := h _ hrun
  revert h2
  decide

/-- C8 as amended: for a registry into which two files with different names
were parsed one after the other, a run of `PrintProtoInfo` prints the one file
and then the other, in either of the two orders, and the possible outputs are
the same whichever of the two files was parsed first. When the two files are
printed with the blocks `A` and `B`, the output is `A` followed by `B` or `B`
followed by `A`. -/
theorem PrintProtoInfo_two_files (parser : String → Except String (List ParsedFile))
    (pa pb a b : String) (fa fb : FileDescriptor) (hab : a ≠ b)
    (hpa : parser pa = .ok [⟨a, fa⟩]) (hpb : parser pb = .ok [⟨b, fb⟩]) (out : Printed) :
    (PrintProtoInfo (ParseProtoFile (ParseProtoFile (NewProtoParser parser) pb).1 pa).1 out
      ↔ (out = (printFileInfo a fa).andThen (printFileInfo b fb)
          ∨ out = (printFileInfo b fb).andThen (printFileInfo a fa)))
    ∧ (PrintProtoInfo (ParseProtoFile (ParseProtoFile (NewProtoParser parser) pb).1 pa).1 out
      ↔ PrintProtoInfo (ParseProtoFile (ParseProtoFile (NewProtoParser parser) pa).1 pb).1
          out)
    ∧ (∀ A B : String, printFileInfo a fa = Printed.done A →
        printFileInfo b fb = Printed.done B →
        (PrintProtoInfo (ParseProtoFile (ParseProtoFile (NewProtoParser parser) pb).1 pa).1
            out
          ↔ (out = Printed.done (A ++ B) ∨ out = Printed.done (B ++ A)))) := by
  rw [registry_two_inserts parser pa pb a b fa fb hab hpa hpb,
    registry_two_inserts parser pb pa b a fb fa hab.symm hpb hpa]
  refine ⟨?_, ?_, ?_⟩
  · rw [PrintProtoInfo_pair]
    exact Or.comm
  · rw [PrintProtoInfo_pair, PrintProtoInfo_pair]
    exact Or.comm
  · intro A B hA hB
    rw [PrintProtoInfo_pair]
    simp only [hA, hB, Printed.done_andThen_done]
    exact Or.comm

set_option maxRecDepth 100000 in
/-- The theorem of C8 as amended on `a.proto` and `b.proto`: with `b.proto`
parsed first, both orders of the two blocks are outputs of a run. -/
theorem PrintProtoInfo_two_files_witness :
    PrintProtoInfo registryBA (Printed.done (blockA ++ blockB))
    ∧ PrintProtoInfo registryBA (Printed.done (blockB ++ blockA))
    ∧ PrintProtoInfo registryAB (Printed.done (blockB ++ blockA)) :=
  have hab : ("a.proto" : String) ≠ "b.proto" := by decide
  ⟨(PrintProtoInfo_two_files twoFileParser "a.proto" "b.proto" "a.proto" "b.proto"
      (emptyFile "pa" "a.proto") (emptyFile "pb" "b.proto") hab rfl rfl _).1.mpr
      (Or.inl (by decide)),
    (PrintProtoInfo_two_files twoFileParser "a.proto" "b.proto" "a.proto" "b.proto"
      (emptyFile "pa" "a.proto") (emptyFile "pb" "b.proto") hab rfl rfl _).1.mpr
      (Or.inr (by decide)),
    (PrintProtoInfo_two_files twoFileParser "a.proto" "b.proto" "a.proto" "b.proto"
      (emptyFile "pa" "a.proto") (emptyFile "pb" "b.proto") hab rfl rfl _).2.1.mp
      ((PrintProtoInfo_two_files twoFileParser "a.proto" "b.proto" "a.proto" "b.proto"
        (emptyFile "pa" "a.proto") (emptyFile "pb" "b.proto") hab rfl rfl _).1.mpr
        (Or.inr (by decide)))⟩

theorem perm_short {α : Type} {l visit : List α} (hlen : l.length ≤ 1)
    (h : visit.Perm l) : visit = l := by
  match l, hlen with
  | [], _ => exact List.perm_nil.mp h
  | [x], _ => exact List.perm_singleton.mp h

set_option maxRecDepth 100000 in
/-- Counterexample to C9: on the registry that holds `a.proto` and `b.proto`,
two runs of `PrintProtoInfo` on the same registry can write different
outputs. -/
theorem PrintProtoInfo_determinism_counterexample :
    ¬ (∀ (p : ProtoParser) (out1 out2 : Printed),
        PrintProtoInfo p out1 → PrintProtoInfo p out2 → out1 = out2) := by
  intro h
  have h1 : PrintProtoInfo registryAB (Printed.done (blockA ++ blockB)) :=
    ⟨[("a.proto", emptyFile "pa" "a.proto"), ("b.proto", emptyFile "pb" "b.proto")],
      List.Perm.refl _, by decide⟩
  have h2 : PrintProtoInfo registryAB (Printed.done (blockB ++ blockA)) :=
    ⟨[("b.proto", emptyFile "pb" "b.proto"), ("a.proto", emptyFile "pa" "a.proto")],
      List.Perm.swap _ _ _, by decide⟩
  have h3 := h _ _ _ h1 h2
  revert h3
  decide

/-- C9 as amended: two runs of `PrintProtoInfo` on the same registry write
the same output when the registry holds at most one file; for any registry the
two runs visit the same stored files, each once, in two visiting orders that
are permutations of one another. -/
theorem PrintProtoInfo_runs_agree (p : ProtoParser) (out1 out2 : Printed)
    (h1 : PrintProtoInfo p out1) (h2 : PrintProtoInfo p out2) :
    (p.Files.length ≤ 1 → out1 = out2)
    ∧ ∃ visit1 visit2 : FileMap, visit1.Perm visit2 ∧ visit1.Perm p.Files
        ∧ out1 = PrintProtoInfoIn visit1 ∧ out2 = PrintProtoInfoIn visit2 := by
  obtain ⟨v1, hv1, rfl⟩ := h1
  obtain ⟨v2, hv2, rfl⟩ := h2
  refine ⟨fun hlen => ?_, v1, v2, List.Perm.trans hv1 (List.Perm.symm hv2), hv1, rfl, rfl⟩
  rw [perm_short hlen hv1, perm_short hlen hv2]

set_option maxRecDepth 100000 in
/-- The theorem of C9 as amended on the registry that holds only `a.proto`:
the outputs of two runs are equal, whichever way each is written down. -/
theorem PrintProtoInfo_runs_agree_witness :
    PrintProtoInfoIn (ParseProtoFile (NewProtoParser twoFileParser) "a.proto").1.Files
      = Printed.done blockA :=
  (PrintProtoInfo_runs_agree (ParseProtoFile (NewProtoParser twoFileParser) "a.proto").1
    (PrintProtoInfoIn (ParseProtoFile (NewProtoParser twoFileParser) "a.proto").1.Files)
    (Printed.done blockA)
    ⟨_, List.Perm.refl _, rfl⟩
    ⟨[("a.proto", emptyFile "pa" "a.proto")], List.Perm.refl _, by decide⟩).1 (by decide)

/-! ## Nesting -/

set_option maxRecDepth 100000 in
/-- C10 (code at the failing input): the message `Outer` with the enum field
`status` without explicit default and the nested message `Inner`, printed at
depth 1, ends in the panic of parse.go:121 after the header line and
`[*]enum status`; the block of `Inner` at depth 2 and the closing line of
`Outer` are not written. In general `printMessage` at depth `d` runs, in this
order, the header line with `4*d` leading spaces, the body and the closing
line with `4*d` leading spaces; a directly nested message is printed by
`printMessage` at depth `d+1` between the two, when control reaches it; the
chain of three messages without fields gives headers with 4, 8, 12 and closing
lines with 12, 8, 4 leading spaces. -/
theorem printMessage_nesting :
    printMessage failingTree 1
        = Printed.panic ("    message Outer \x7b\n" ++ "     [*]enum status")
    ∧ (∀ (m : MessageDescriptor) (d : Nat),
        printMessage m d
          = (Printed.done (spaces (4 * d) ++ "message " ++ m.Name ++ " \x7b\n")).andThen
              ((messageBody m d).andThen (Printed.done (spaces (4 * d) ++ "\x7d \n"))))
    ∧ (∀ (m : MessageDescriptor) (d : Nat) (ms1 : List MessageDescriptor)
        (c : MessageDescriptor) (ms2 : List MessageDescriptor),
        m.Messages = ms1 ++ c :: ms2 →
        printMessage m d
          = (Printed.done (spaces (4 * d) ++ "message " ++ m.Name ++ " \x7b\n")).andThen
              (((forEachP (printField (spaces (4 * d))) m.Fields).andThen
                  (printMessages ms1 (d + 1))).andThen
                ((printMessage c (d + 1)).andThen
                  (((printMessages ms2 (d + 1)).andThen
                      (Printed.done (forEach (fun e => printEnum e (d + 1)) m.Enums))).andThen
                    (Printed.done (spaces (4 * d) ++ "\x7d \n"))))))
    ∧ (∀ a b c : String,
        printMessage (.mk a [] [.mk b [] [.mk c [] [] []] []] []) 1
          = Printed.done
              (spaces 4 ++ "message " ++ a ++ " \x7b\n"
                ++ spaces 8 ++ "message " ++ b ++ " \x7b\n"
                ++ spaces 12 ++ "message " ++ c ++ " \x7b\n"
                ++ spaces 12 ++ "\x7d \n"
                ++ spaces 8 ++ "\x7d \n"
                ++ spaces 4 ++ "\x7d \n")) := by
  refine ⟨by decide, ?_, ?_, ?_⟩
  · intro m d
    rw [printMessage_eq, Repeat_four_spaces]
  · intro m d ms1 c ms2 hms
    rw [printMessage_eq, messageBody, hms, printMessages_append, printMessages,
      Repeat_four_spaces]
    simp only [Printed.andThen_assoc]
  · intro a b c
    have h1 : Repeat "    " 1 = spaces 4 := Repeat_four_spaces 1
    have h2 : Repeat "    " 2 = spaces 8 := Repeat_four_spaces 2
    have h3 : Repeat "    " 3 = spaces 12 := Repeat_four_spaces 3
    simp only [printMessage, printMessages, forEachP, forEach, h1, h2, h3,
      Printed.done_andThen_done, String.append_assoc, String.append_empty,
      String.empty_append, Nat.reduceAdd]

/-! ## The text of a field -/

theorem forEach_eq_join {α : Type} (body : α → String) (xs : List α) :
    forEach body xs = String.join (xs.map body) := by
  apply String.ext
  induction xs with
  | nil => rfl
  | cons x xs ih =>
    rw [String.data_join] at ih
    rw [forEach, String.data_append, ih, String.data_join]
    rfl

theorem ite_mem {α : Type} {l : List α} {c : Prop} [Decidable c] {x y : α} (hx : x ∈ l)
    (hy : y ∈ l) : (if c then x else y) ∈ l := by
  split <;> assumption

theorem getFieldType_mem (field : FieldDescriptor) : getFieldType field ∈ typeTokens := by
  unfold getFieldType
  repeat apply ite_mem (by decide)
  decide

theorem countChar_getFieldType (c : Char) (hc : ∀ t ∈ typeTokens, countChar c t = 0)
    (field : FieldDescriptor) : countChar c (getFieldType field) = 0 :=
  hc _ (getFieldType_mem field)

theorem typeTokens_no_newline : ∀ t ∈ typeTokens, countChar '\n' t = 0 := by
  decide

theorem panicFreeField_iff (field : FieldDescriptor) :
    panicFreeField field = true
      ↔ (field.Kind = EnumKind → ∃ ev, field.DefaultEnumValue = some ev) := by
  simp only [panicFreeField, Bool.or_eq_true, decide_eq_true_eq, Option.isSome_iff_exists,
    ne_eq]
  constructor
  · rintro (h | h) hk
    · exact absurd hk h
    · exact h
  · intro h
    by_cases hk : field.Kind = EnumKind
    · exact Or.inr (h hk)
    · exact Or.inl hk

theorem printFieldDefault_eq (field : FieldDescriptor) (hp : panicFreeField field = true) :
    printFieldDefault field = Printed.done (defaultClause field ++ "\n") := by
  rw [panicFreeField_iff] at hp
  unfold printFieldDefault defaultClause
  by_cases hm : field.Kind = MessageKind
  · rw [if_pos hm, if_pos hm]
    rfl
  · rw [if_neg hm, if_neg hm]
    by_cases he : field.Kind = EnumKind
    · obtain ⟨ev, hev⟩ := hp he
      rw [if_pos he, if_pos he, hev]
      simp only [String.append_assoc]
      rfl
    · rw [if_neg he, if_neg he]
      by_cases hs : field.Kind = StringKind
      · rw [if_pos hs, if_pos hs]
        simp only [String.append_assoc]
        rfl
      · rw [if_neg hs, if_neg hs]
        simp only [String.append_assoc]
        rfl

theorem printField_eq_fieldLine (d : Nat) (field : FieldDescriptor)
    (hp : panicFreeField field = true) :
    printField (spaces (4 * d)) field = Printed.done (fieldLine d field ++ "\n") := by
  rw [printField, fieldLine, printFieldDefault_eq field hp, Printed.done_andThen_done]
  simp only [String.append_assoc]

theorem defaultClause_ends (field : FieldDescriptor) (hp : panicFreeField field = true) :
    ∃ text, defaultClause field = text ++ ";" := by
  rw [panicFreeField_iff] at hp
  unfold defaultClause
  by_cases hm : field.Kind = MessageKind
  · rw [if_pos hm]
    exact ⟨"", rfl⟩
  · rw [if_neg hm]
    by_cases he : field.Kind = EnumKind
    · obtain ⟨ev, hev⟩ := hp he
      rw [if_pos he, hev]
      exact ⟨" = " ++ ev.Name, rfl⟩
    · rw [if_neg he]
      by_cases hs : field.Kind = StringKind
      · rw [if_pos hs]
        exact ⟨" = \"" ++ field.Default.Sprint ++ "\"", by
          simp only [String.append_assoc]
          rfl⟩
      · rw [if_neg hs]
        exact ⟨" = " ++ field.Default.Sprint, rfl⟩

theorem countChar_defaultClause (c : Char) (field : FieldDescriptor)
    (h0 : countChar c ";" = 0) (h1 : countChar c " = " = 0) (h2 : countChar c " = \"" = 0)
    (h3 : countChar c "\";" = 0)
    (he : field.Kind = EnumKind →
      ∀ ev, field.DefaultEnumValue = some ev → countChar c ev.Name = 0)
    (hd : field.Kind ≠ MessageKind → field.Kind ≠ EnumKind →
      countChar c field.Default.Sprint = 0) :
    countChar c (defaultClause field) = 0 := by
  unfold defaultClause
  by_cases hm : field.Kind = MessageKind
  · rw [if_pos hm, h0]
  · rw [if_neg hm]
    by_cases hen : field.Kind = EnumKind
    · rw [if_pos hen]
      cases hev : field.DefaultEnumValue with
      | none => rfl
      | some ev =>
        simp only [countChar_append, h0, h1, he hen ev hev, Nat.add_zero]
    · rw [if_neg hen]
      by_cases hs : field.Kind = StringKind
      · rw [if_pos hs]
        simp only [countChar_append, h2, h3, hd hm hen, Nat.add_zero]
      · rw [if_neg hs]
        simp only [countChar_append, h0, h1, hd hm hen, Nat.add_zero]

theorem fieldAttr_mem (field : FieldDescriptor) : fieldAttr field ∈ ['*', 'o', '+'] := by
  unfold fieldAttr
  cases field.HasOptionalKeyword <;> cases field.IsPacked <;> decide

theorem countChar_fieldAttr (c : Char) (hc : c ∉ ['*', 'o', '+']) (field : FieldDescriptor) :
    countChar c (String.singleton (fieldAttr field)) = 0 := by
  show List.count c [fieldAttr field] = 0
  apply List.count_eq_zero_of_not_mem
  intro h
  rw [List.mem_singleton] at h
  rw [h] at hc
  exact hc (fieldAttr_mem field)

/-- The characters of the format strings of the field loop, the type names
and the markers. -/
theorem countChar_fieldLine (c : Char) (d : Nat) (field : FieldDescriptor)
    (hsp : c ≠ ' ') (hb1 : countChar c " [" = 0) (hb2 : countChar c "]" = 0)
    (hattr : c ∉ ['*', 'o', '+']) (htok : ∀ t ∈ typeTokens, countChar c t = 0)
    (h0 : countChar c ";" = 0) (h1 : countChar c " = " = 0) (h2 : countChar c " = \"" = 0)
    (h3 : countChar c "\";" = 0)
    (hn : countChar c field.Name = 0)
    (he : field.Kind = EnumKind →
      ∀ ev, field.DefaultEnumValue = some ev → countChar c ev.Name = 0)
    (hd : field.Kind ≠ MessageKind → field.Kind ≠ EnumKind →
      countChar c field.Default.Sprint = 0) :
    countChar c (fieldLine d field) = 0 := by
  have hs1 : countChar c " " = 0 := by
    show List.count c [' '] = 0
    apply List.count_eq_zero_of_not_mem
    intro h
    exact hsp (List.mem_singleton.mp h)
  simp only [fieldLine, countChar_append, hb1, hb2, hs1, hn, countChar_fieldAttr c hattr,
    countChar_getFieldType c htok, countChar_defaultClause c field h0 h1 h2 h3 he hd,
    countChar_spaces c hsp, Nat.add_zero]

/-! ## Enum and service blocks -/

theorem forEach_map {α β : Type} (body : β → String) (f : α → β) (xs : List α) :
    forEach body (xs.map f) = forEach (fun x => body (f x)) xs := by
  induction xs with
  | nil => rfl
  | cons x xs ih => simp only [List.map_cons, forEach, ih]

theorem forEach_congr {α : Type} (f g : α → String) (xs : List α) (h : ∀ x, f x = g x) :
    forEach f xs = forEach g xs := by
  have hfg : f = g := funext h
  rw [hfg]

theorem unlines_append (xs ys : List String) : unlines (xs ++ ys) = unlines xs ++ unlines ys :=
  forEach_append _ xs ys

theorem unlines_singleton (l : String) : unlines [l] = l ++ "\n" := by
  simp only [unlines, forEach, String.append_empty]

theorem unlines_cons (l : String) (ls : List String) :
    unlines (l :: ls) = l ++ "\n" ++ unlines ls := rfl

theorem printEnum_eq_unlines (e : EnumDescriptor) (d : Nat) :
    printEnum e d = unlines (enumLines e d) := by
  have hv : ∀ v, printEnumValue (spaces (4 * d)) v = enumValueLine d v ++ "\n" := by
    intro v
    simp only [printEnumValue, enumValueLine, String.append_assoc]
    rfl
  rw [printEnum, enumLines, unlines_append, unlines_append, unlines_singleton,
    unlines_singleton, unlines, forEach_map, Repeat_four_spaces,
    forEach_congr _ _ _ hv]
  simp only [String.append_assoc]
  rfl

theorem countChar_unlines (ls : List String) (h : ∀ l ∈ ls, countChar '\n' l = 0) :
    countChar '\n' (unlines ls) = ls.length := by
  rw [unlines, countChar_forEach, total_const _ 1 ls, Nat.mul_one]
  intro l hl
  rw [countChar_append, h l hl]
  rfl

/-- C14: `printEnum` on an enum with `n` values at depth `d` writes exactly
`n+2` lines: `4*d` spaces and `enum <Name> {`; then for each value, in
declaration order, the line made of the indent (`4*d` spaces and the two
spaces of the format string), the name, ` = `, the number as a signed decimal
literal and `;`; then `4*d` spaces and `}`. -/
theorem printEnum_lines (e : EnumDescriptor) (d : Nat) :
    printEnum e d = unlines (enumLines e d)
    ∧ (enumLines e d).length = e.Values.length + 2
    ∧ (enumLines e d)[0]? = some (spaces (4 * d) ++ "enum " ++ e.Name ++ " \x7b")
    ∧ (∀ (i : Nat) (v : EnumValueDescriptor), e.Values[i]? = some v →
        (enumLines e d)[i + 1]?
          = some (spaces (4 * d + 2) ++ v.Name ++ " = " ++ toString v.Number ++ ";"))
    ∧ (enumLines e d)[e.Values.length + 1]? = some (spaces (4 * d) ++ "\x7d")
    ∧ (countChar '\n' e.Name = 0 → (∀ v ∈ e.Values, countChar '\n' v.Name = 0) →
        countChar '\n' (printEnum e d) = e.Values.length + 2) := by
  have hl : enumLines e d
      = (spaces (4 * d) ++ "enum " ++ e.Name ++ " \x7b")
        :: (e.Values.map (enumValueLine d) ++ [spaces (4 * d) ++ "\x7d"]) := rfl
  have hlen : (enumLines e d).length = e.Values.length + 2 := by
    rw [hl, List.length_cons, List.length_append, List.length_map, List.length_singleton]
  refine ⟨printEnum_eq_unlines e d, hlen, ?_, ?_, ?_, ?_⟩
  · rw [hl, List.getElem?_cons_zero]
  · intro i v hv
    have hlt : i < e.Values.length := by
      rcases Nat.lt_or_ge i e.Values.length with h | h
      · exact h
      · rw [List.getElem?_eq_none h] at hv
        exact absurd hv (by simp)
    rw [hl, List.getElem?_cons_succ,
      List.getElem?_append_left (by rw [List.length_map]; exact hlt), List.getElem?_map, hv]
    simp only [Option.map_some', enumValueLine, spaces_add]
    rfl
  · rw [hl, List.getElem?_cons_succ,
      List.getElem?_append_right (by rw [List.length_map]), List.length_map, Nat.sub_self,
      List.getElem?_cons_zero]
  · intro hn hv
    rw [printEnum_eq_unlines, countChar_unlines, hlen]
    intro l hl2
    rw [hl, List.mem_cons, List.mem_append, List.mem_map, List.mem_singleton] at hl2
    rcases hl2 with rfl | ⟨v, hvm, rfl⟩ | rfl
    · simp only [countChar_append, hn, countChar_spaces '\n' (by decide)]
      decide
    · simp only [enumValueLine, countChar_append, hv v hvm,
        countChar_spaces '\n' (by decide),
        countChar_intToString '\n' (by decide) (by decide)]
      decide
    · simp only [countChar_append, countChar_spaces '\n' (by decide)]
      decide

set_option maxRecDepth 100000 in
/-- The theorem of C14 on the enum `Status` with UNKNOWN=0 and ACTIVE=1 at
depth 1 and on an enum with a negative number. -/
theorem printEnum_lines_witness :
    printEnum statusEnum 1
        = "    enum Status \x7b\n" ++ "      UNKNOWN = 0;\n" ++ "      ACTIVE = 1;\n" ++ "    \x7d\n"
    ∧ (enumLines ⟨"E", [⟨"NEG", -3⟩]⟩ 2)[1]? = some "          NEG = -3;"
    ∧ countChar '\n' (printEnum statusEnum 1) = 4 :=
  ⟨(printEnum_lines statusEnum 1).1.trans (by decide),
    ((printEnum_lines ⟨"E", [⟨"NEG", -3⟩]⟩ 2).2.2.2.1 0 ⟨"NEG", -3⟩ rfl).trans (by decide),
    (printEnum_lines statusEnum 1).2.2.2.2.2 (by decide) (by decide)⟩

theorem printService_eq_unlines (s : ServiceDescriptor) (d : Nat) :
    printService s d = unlines (serviceLines s d) := by
  have hm : ∀ m, printMethod (spaces (4 * d)) m = methodLine d m ++ "\n" := by
    intro m
    simp only [printMethod, methodLine, String.append_assoc]
    rfl
  rw [printService, serviceLines, unlines_append, unlines_append, unlines_singleton,
    unlines_singleton, unlines, forEach_map, Repeat_four_spaces,
    forEach_congr _ _ _ hm]
  simp only [String.append_assoc]
  rfl

/-- C15: `printService` on a service with `n` methods at depth `d` writes
exactly `n+2` lines: `4*d` spaces and `service <Name> {`; then for each method,
in declaration order, the line (indented by `4*d` spaces and the two spaces of
the format string) `rpc <method name> (<input name>) returns (<output name>);`
with the short names of the input and output messages; then `4*d` spaces and
`}`. -/
theorem printService_lines (s : ServiceDescriptor) (d : Nat) :
    printService s d = unlines (serviceLines s d)
    ∧ (serviceLines s d).length = s.Methods.length + 2
    ∧ (serviceLines s d)[0]? = some (spaces (4 * d) ++ "service " ++ s.Name ++ " \x7b")
    ∧ (∀ (i : Nat) (m : MethodDescriptor), s.Methods[i]? = some m →
        (serviceLines s d)[i + 1]?
          = some (spaces (4 * d + 2) ++ "rpc " ++ m.Name ++ " (" ++ m.Input.Name
              ++ ") returns (" ++ m.Output.Name ++ ");"))
    ∧ (serviceLines s d)[s.Methods.length + 1]? = some (spaces (4 * d) ++ "\x7d")
    ∧ (countChar '\n' s.Name = 0 →
        (∀ m ∈ s.Methods, countChar '\n' m.Name = 0 ∧ countChar '\n' m.Input.Name = 0
          ∧ countChar '\n' m.Output.Name = 0) →
        countChar '\n' (printService s d) = s.Methods.length + 2) := by
  have hl : serviceLines s d
      = (spaces (4 * d) ++ "service " ++ s.Name ++ " \x7b")
        :: (s.Methods.map (methodLine d) ++ [spaces (4 * d) ++ "\x7d"]) := rfl
  have hlen : (serviceLines s d).length = s.Methods.length + 2 := by
    rw [hl, List.length_cons, List.length_append, List.length_map, List.length_singleton]
  refine ⟨printService_eq_unlines s d, hlen, ?_, ?_, ?_, ?_⟩
  · rw [hl, List.getElem?_cons_zero]
  · intro i m hm
    have hlt : i < s.Methods.length := by
      rcases Nat.lt_or_ge i s.Methods.length with h | h
      · exact h
      · rw [List.getElem?_eq_none h] at hm
        exact absurd hm (by simp)
    rw [hl, List.getElem?_cons_succ,
      List.getElem?_append_left (by rw [List.length_map]; exact hlt), List.getElem?_map, hm]
    simp only [Option.map_some', methodLine, spaces_add, String.append_assoc]
    rfl
  · rw [hl, List.getElem?_cons_succ,
      List.getElem?_append_right (by rw [List.length_map]), List.length_map, Nat.sub_self,
      List.getElem?_cons_zero]
  · intro hn hm
    rw [printService_eq_unlines, countChar_unlines, hlen]
    intro l hl2
    rw [hl, List.mem_cons, List.mem_append, List.mem_map, List.mem_singleton] at hl2
    rcases hl2 with rfl | ⟨m, hmm, rfl⟩ | rfl
    · simp only [countChar_append, hn, countChar_spaces '\n' (by decide)]
      decide
    · simp only [methodLine, countChar_append, (hm m hmm).1, (hm m hmm).2.1, (hm m hmm).2.2,
        countChar_spaces '\n' (by decide)]
      decide
    · simp only [countChar_append, countChar_spaces '\n' (by decide)]
      decide

set_option maxRecDepth 100000 in
/-- The theorem of C15 on a service with one method at depth 1. -/
theorem printService_lines_witness :
    printService sampleService 1
        = "    service Svc \x7b\n" ++ "      rpc Get (Req) returns (Resp);\n" ++ "    \x7d\n"
    ∧ (serviceLines sampleService 1)[1]? = some "      rpc Get (Req) returns (Resp);"
    ∧ countChar '\n' (printService sampleService 1) = 3 :=
  ⟨(printService_lines sampleService 1).1.trans (by decide),
    ((printService_lines sampleService 1).2.2.2.1 0 _ rfl).trans (by decide),
    (printService_lines sampleService 1).2.2.2.2.2 (by decide) (by decide)⟩

/-! ## The output as lines -/

theorem unlines_linesOf {α : Type} (f : α → List String) (xs : List α) :
    unlines (linesOf f xs) = forEach (fun x => unlines (f x)) xs := by
  induction xs with
  | nil => rfl
  | cons x xs ih => rw [linesOf, unlines_append, ih, forEach]

theorem panicFree_mk (name : String) (fields : List FieldDescriptor)
    (msgs : List MessageDescriptor) (enums : List EnumDescriptor) :
    panicFree (.mk name fields msgs enums) = true
      ↔ (∀ f ∈ fields, panicFreeField f = true) ∧ panicFreeAll msgs = true := by
  simp only [panicFree, Bool.and_eq_true, List.all_eq_true]

theorem panicFreeAll_iff (ms : List MessageDescriptor) :
    panicFreeAll ms = true ↔ ∀ m ∈ ms, panicFree m = true := by
  induction ms with
  | nil => simp [panicFreeAll]
  | cons m ms ih => simp [panicFreeAll, ih]

theorem fields_eq_unlines (d : Nat) (fields : List FieldDescriptor)
    (h : ∀ f ∈ fields, panicFreeField f = true) :
    forEachP (printField (Repeat "    " d)) fields
      = Printed.done (unlines (fields.map (fieldLine d))) := by
  rw [Repeat_four_spaces, forEachP_done _ (fun f => fieldLine d f ++ "\n") fields
    (fun f hf => printField_eq_fieldLine d f (h f hf)), unlines, forEach_map]

mutual
theorem printMessage_eq_unlines :
    ∀ (m : MessageDescriptor) (d : Nat), panicFree m = true →
      printMessage m d = Printed.done (unlines (messageLines m d))
  | .mk name fields msgs enums, d, h => by
    rw [panicFree_mk] at h
    rw [printMessage, fields_eq_unlines d fields h.1,
      printMessages_eq_unlines msgs (d + 1) h.2, messageLines, unlines_append,
      unlines_append, unlines_append, unlines_append, unlines_singleton, unlines_singleton,
      unlines_linesOf, Repeat_four_spaces,
      forEach_congr (fun e => printEnum e (d + 1)) _ _
        (fun e => printEnum_eq_unlines e (d + 1))]
    simp only [Printed.done_andThen_done, String.append_assoc]
    rfl
theorem printMessages_eq_unlines :
    ∀ (ms : List MessageDescriptor) (d : Nat), panicFreeAll ms = true →
      printMessages ms d = Printed.done (unlines (messagesLines ms d))
  | [], _, _ => rfl
  | m :: ms, d, h => by
    simp only [panicFreeAll, Bool.and_eq_true] at h
    rw [printMessages, messagesLines, unlines_append, printMessage_eq_unlines m d h.1,
      printMessages_eq_unlines ms d h.2, Printed.done_andThen_done]
end

theorem messagesLines_eq (ms : List MessageDescriptor) (d : Nat) :
    unlines (messagesLines ms d) = forEach (fun c => unlines (messageLines c d)) ms := by
  induction ms with
  | nil => rfl
  | cons m ms ih => rw [messagesLines, unlines_append, ih, forEach]

/-! ## The per-file output as lines -/

theorem section_eq_unlines {α : Type} (title : String) (body : α → String)
    (f : α → List String) (xs : List α) (h : ∀ x, body x = unlines (f x)) :
    (if xs.length > 0 then title ++ "\n" ++ forEach body xs else "")
      = unlines (sectionLines title f xs) := by
  cases xs with
  | nil => rfl
  | cons x xs =>
    rw [if_pos (by simp), sectionLines, unlines_cons, unlines_linesOf,
      forEach_congr _ _ _ h]

theorem printFileInfo_eq_unlines (fileName : String) (fd : FileDescriptor)
    (hp : panicFreeAll fd.Messages = true) :
    printFileInfo fileName fd = Printed.done (unlines (fileLines fileName fd)) := by
  have h1 := section_eq_unlines "Imports:" (fun i : FileImport => "  - " ++ i.FullName ++ "\n")
    (fun i => ["  - " ++ i.FullName]) fd.Imports (fun i => (unlines_singleton _).symm)
  have h2 := section_eq_unlines "Messages:" (fun m => unlines (messageLines m 1))
    (fun m => messageLines m 1) fd.Messages (fun _ => rfl)
  have h3 := section_eq_unlines "Enums:" (fun e => printEnum e 1)
    (fun e => enumLines e 1) fd.Enums (fun e => printEnum_eq_unlines e 1)
  have h4 := section_eq_unlines "Services:" (fun s => printService s 1)
    (fun s => serviceLines s 1) fd.Services (fun s => printService_eq_unlines s 1)
  have hm : (if fd.Messages.length > 0 then
        (Printed.done "Messages:\n").andThen (printMessages fd.Messages 1)
      else Printed.done "")
      = Printed.done (if fd.Messages.length > 0 then
          "Messages:" ++ "\n" ++ forEach (fun m => unlines (messageLines m 1)) fd.Messages
        else "") := by
    rw [printMessages_eq_unlines fd.Messages 1 hp, messagesLines_eq]
    by_cases h : fd.Messages.length > 0
    · rw [if_pos h, if_pos h, Printed.done_andThen_done]
      rfl
    · rw [if_neg h, if_neg h]
  rw [fileLines, unlines_append, unlines_append, unlines_append, unlines_append, ← h1, ← h2,
    ← h3, ← h4, printFileInfo, hm]
  simp only [Printed.done_andThen_done, unlines, forEach, String.append_assoc,
    String.append_empty]
  rfl

theorem splitLines_line (l : List Char) (hl : '\n' ∉ l) :
    ∀ (cur rest : List Char),
      splitLines (l ++ '\n' :: rest) cur = String.mk (cur.reverse ++ l) :: splitLines rest [] := by
  induction l with
  | nil =>
    intro cur rest
    rw [List.nil_append, splitLines, if_pos rfl, List.append_nil]
  | cons c cs ih =>
    intro cur rest
    have hc : c ≠ '\n' := fun h => hl (by rw [h]; exact List.mem_cons_self _ _)
    have hcs : '\n' ∉ cs := fun h => hl (List.mem_cons_of_mem _ h)
    rw [List.cons_append, splitLines, if_neg hc, ih hcs, List.reverse_cons,
      List.append_assoc, List.singleton_append]

theorem outputLines_unlines (ls : List String) (h : ∀ l ∈ ls, countChar '\n' l = 0) :
    outputLines (unlines ls) = ls := by
  induction ls with
  | nil => rfl
  | cons l ls ih =>
    have hl : '\n' ∉ l.data := by
      have := h l (List.mem_cons_self _ _)
      exact List.count_eq_zero.mp this
    have ih2 := ih (fun x hx => h x (List.mem_cons_of_mem _ hx))
    rw [outputLines] at ih2 ⊢
    rw [unlines_cons, String.data_append, String.data_append, List.append_assoc]
    show splitLines (l.data ++ '\n' :: (unlines ls).data) [] = l :: ls
    rw [splitLines_line l.data hl, ih2]
    rfl

theorem lead_append (a b : String) (h : 2 ≤ a.data.length) : lead (a ++ b) = lead a := by
  rw [lead, lead, String.data_append, List.take_append_of_le_length h]

theorem lead_spaces (n : Nat) (hn : 2 ≤ n) (rest : String) :
    lead (spaces n ++ rest) = [' ', ' '] := by
  rw [lead_append _ _ (by simpa [spaces] using hn)]
  obtain ⟨k, rfl⟩ : ∃ k, n = k + 2 := ⟨n - 2, by omega⟩
  rfl

theorem lead_enumLines (e : EnumDescriptor) (d : Nat) (hd : 1 ≤ d) :
    ∀ l ∈ enumLines e d, lead l = [' ', ' '] := by
  intro l hl
  have h4 : 2 ≤ 4 * d := by omega
  simp only [enumLines, enumValueLine, List.mem_append, List.mem_singleton, List.mem_map] at hl
  rcases hl with (rfl | ⟨v, _, rfl⟩) | rfl
  all_goals
    try simp only [String.append_assoc]
    exact lead_spaces _ h4 _

theorem lead_serviceLines (s : ServiceDescriptor) (d : Nat) (hd : 1 ≤ d) :
    ∀ l ∈ serviceLines s d, lead l = [' ', ' '] := by
  intro l hl
  have h4 : 2 ≤ 4 * d := by omega
  simp only [serviceLines, methodLine, List.mem_append, List.mem_singleton,
    List.mem_map] at hl
  rcases hl with (rfl | ⟨v, _, rfl⟩) | rfl
  all_goals
    try simp only [String.append_assoc]
    exact lead_spaces _ h4 _

theorem mem_linesOf {α : Type} (f : α → List String) (xs : List α) (l : String)
    (h : l ∈ linesOf f xs) : ∃ x ∈ xs, l ∈ f x := by
  induction xs with
  | nil => exact absurd h (List.not_mem_nil _)
  | cons x xs ih =>
    rw [linesOf, List.mem_append] at h
    rcases h with h | h
    · exact ⟨x, List.mem_cons_self _ _, h⟩
    · obtain ⟨y, hy, hl⟩ := ih h
      exact ⟨y, List.mem_cons_of_mem _ hy, hl⟩

mutual
theorem lead_messageLines :
    ∀ (m : MessageDescriptor) (d : Nat), 1 ≤ d → ∀ l ∈ messageLines m d, lead l = [' ', ' ']
  | .mk name fields msgs enums, d, hd, l, hl => by
    have h4 : 2 ≤ 4 * d := by omega
    rw [messageLines] at hl
    simp only [List.mem_append, List.mem_singleton, List.mem_map] at hl
    rcases hl with (((rfl | ⟨f, _, rfl⟩) | h) | h) | rfl
    · simp only [String.append_assoc]
      exact lead_spaces _ h4 _
    · simp only [fieldLine, String.append_assoc]
      exact lead_spaces _ h4 _
    · exact lead_messagesLines msgs (d + 1) (by omega) l h
    · obtain ⟨e, _, he⟩ := mem_linesOf _ _ _ h
      exact lead_enumLines e (d + 1) (by omega) l he
    · exact lead_spaces _ h4 _
theorem lead_messagesLines :
    ∀ (ms : List MessageDescriptor) (d : Nat), 1 ≤ d →
      ∀ l ∈ messagesLines ms d, lead l = [' ', ' ']
  | [], _, _, l, hl => by
    rw [messagesLines] at hl
    exact absurd hl (List.not_mem_nil _)
  | m :: ms, d, hd, l, hl => by
    rw [messagesLines, List.mem_append] at hl
    rcases hl with h | h
    · exact lead_messageLines m d hd l h
    · exact lead_messagesLines ms d hd l h
end

theorem sectionLines_mem {α : Type} (title : String) (f : α → List String) (xs : List α)
    (l : String) (h : l ∈ sectionLines title f xs) :
    (l = title ∧ xs ≠ []) ∨ ∃ x ∈ xs, l ∈ f x := by
  cases xs with
  | nil => exact absurd h (List.not_mem_nil _)
  | cons x xs =>
    rw [sectionLines, List.mem_cons] at h
    rcases h with h | h
    · exact Or.inl ⟨h, List.cons_ne_nil _ _⟩
    · exact Or.inr (mem_linesOf _ _ _ h)

theorem title_mem_sectionLines {α : Type} (title : String) (f : α → List String)
    (xs : List α) (h : xs ≠ []) : title ∈ sectionLines title f xs := by
  cases xs with
  | nil => exact absurd rfl h
  | cons x xs => exact List.mem_cons_self _ _

theorem fileLines_cases (fileName : String) (fd : FileDescriptor) (l : String)
    (h : l ∈ fileLines fileName fd) :
    l = "" ∨ lead l = ['=', '='] ∨ lead l = ['S', 'y'] ∨ lead l = ['P', 'a']
      ∨ lead l = [' ', ' ']
      ∨ (l = "Imports:" ∧ fd.Imports ≠ []) ∨ (l = "Messages:" ∧ fd.Messages ≠ [])
      ∨ (l = "Enums:" ∧ fd.Enums ≠ []) ∨ (l = "Services:" ∧ fd.Services ≠ []) := by
  rw [fileLines] at h
  simp only [List.mem_append, List.mem_cons, List.mem_singleton, List.not_mem_nil,
    or_false] at h
  rcases h with (((h | h) | h) | h) | h
  · rcases h with rfl | rfl | rfl | rfl | rfl
    · exact Or.inl rfl
    · right; left
      simp only [String.append_assoc]
      exact lead_append _ _ (by decide)
    · right; right; left
      exact lead_append _ _ (by decide)
    · right; right; right; left
      exact lead_append _ _ (by decide)
    · right; right; right; left
      exact lead_append _ _ (by decide)
  · rcases sectionLines_mem _ _ _ _ h with h1 | ⟨i, _, hi⟩
    · right; right; right; right; right; left
      exact h1
    · right; right; right; right; left
      rw [List.mem_singleton] at hi
      rw [hi]
      exact lead_append _ _ (by decide)
  · rcases sectionLines_mem _ _ _ _ h with h1 | ⟨m, _, hm⟩
    · right; right; right; right; right; right; left
      exact h1
    · right; right; right; right; left
      exact lead_messageLines m 1 (Nat.le_refl 1) l hm
  · rcases sectionLines_mem _ _ _ _ h with h1 | ⟨e, _, he⟩
    · right; right; right; right; right; right; right; left
      exact h1
    · right; right; right; right; left
      exact lead_enumLines e 1 (Nat.le_refl 1) l he
  · rcases sectionLines_mem _ _ _ _ h with h1 | ⟨s, _, hs⟩
    · right; right; right; right; right; right; right; right
      exact h1
    · right; right; right; right; left
      exact lead_serviceLines s 1 (Nat.le_refl 1) l hs

/-! ## Texts that avoid a character -/

theorem textAvoids_iff (c : Char) (s : String) : textAvoids c s = true ↔ countChar c s = 0 := by
  simp only [textAvoids, beq_iff_eq]

theorem countChar_intercalate_go (c : Char) (s : String) (hs : countChar c s = 0) :
    ∀ (as : List String) (acc : String), countChar c acc = 0 →
      (∀ a ∈ as, countChar c a = 0) → countChar c (String.intercalate.go acc s as) = 0 := by
  intro as
  induction as with
  | nil =>
    intro acc hacc _
    exact hacc
  | cons a as ih =>
    intro acc hacc h
    rw [String.intercalate.go]
    apply ih
    · rw [countChar_append, countChar_append, hacc, hs, h a (List.mem_cons_self _ _)]
    · exact fun x hx => h x (List.mem_cons_of_mem _ hx)

theorem countChar_sprintBytes (c : Char)
    (hc : c ∉ ['0', '1', '2', '3', '4', '5', '6', '7', '8', '9']) (h1 : countChar c "[" = 0)
    (h2 : countChar c "]" = 0) (h3 : countChar c " " = 0) (b : List Nat) :
    countChar c (sprintBytes b) = 0 := by
  have hi : countChar c (" ".intercalate (b.map toString)) = 0 := by
    cases b with
    | nil => rfl
    | cons x xs =>
      rw [List.map_cons, String.intercalate]
      apply countChar_intercalate_go c " " h3
      · exact countChar_natToString c hc x
      · intro a ha
        obtain ⟨y, _, rfl⟩ := List.mem_map.mp ha
        exact countChar_natToString c hc y
  rw [sprintBytes, countChar_append, countChar_append, h1, h2, hi]

theorem countChar_Sprint (c : Char) (hc : c = '{' ∨ c = '}' ∨ c = '\n') (v : Value)
    (hv : v.avoids c = true) : countChar c v.Sprint = 0 := by
  have hd : c ∉ ['0', '1', '2', '3', '4', '5', '6', '7', '8', '9'] := by
    rcases hc with rfl | rfl | rfl <;> decide
  have hm : c ≠ '-' := by
    rcases hc with rfl | rfl | rfl <;> decide
  cases v with
  | invalid => rcases hc with rfl | rfl | rfl <;> decide
  | bool b => cases b <;> rcases hc with rfl | rfl | rfl <;> decide
  | int n => exact countChar_intToString c hd hm n
  | uint n => exact countChar_natToString c hd n
  | float text => exact (textAvoids_iff c text).mp hv
  | string s => exact (textAvoids_iff c s).mp hv
  | bytes b =>
    apply countChar_sprintBytes c hd
    all_goals rcases hc with rfl | rfl | rfl <;> decide
  | enumNumber n => exact countChar_intToString c hd hm n

theorem fieldAvoids_iff (c : Char) (field : FieldDescriptor) :
    fieldAvoids c field = true
      ↔ countChar c field.Name = 0 ∧ field.Default.avoids c = true
        ∧ (field.Kind = EnumKind →
            ∀ ev, field.DefaultEnumValue = some ev → countChar c ev.Name = 0) := by
  simp only [fieldAvoids, Bool.and_eq_true, Bool.or_eq_true, decide_eq_true_eq, and_assoc,
    ne_eq, textAvoids_iff]
  constructor
  · rintro ⟨h1, h2, h3⟩
    refine ⟨h1, h2, fun hk ev hev => ?_⟩
    rcases h3 with h3 | h3
    · exact absurd hk h3
    · rw [hev] at h3
      exact (textAvoids_iff c ev.Name).mp h3
  · rintro ⟨h1, h2, h3⟩
    refine ⟨h1, h2, ?_⟩
    by_cases hk : field.Kind = EnumKind
    · right
      cases hev : field.DefaultEnumValue with
      | none => rfl
      | some ev => exact (textAvoids_iff c ev.Name).mpr (h3 hk ev hev)
    · exact Or.inl hk

theorem typeTokens_avoid (c : Char) (hc : c = '{' ∨ c = '}' ∨ c = '\n') :
    ∀ t ∈ typeTokens, countChar c t = 0 := by
  rcases hc with rfl | rfl | rfl <;> decide

theorem countChar_fieldLine_avoid (c : Char) (hc : c = '{' ∨ c = '}' ∨ c = '\n') (d : Nat)
    (field : FieldDescriptor) (hf : fieldAvoids c field = true) :
    countChar c (fieldLine d field) = 0 := by
  rw [fieldAvoids_iff] at hf
  exact countChar_fieldLine c d field
    (by rcases hc with rfl | rfl | rfl <;> decide)
    (by rcases hc with rfl | rfl | rfl <;> decide)
    (by rcases hc with rfl | rfl | rfl <;> decide)
    (by rcases hc with rfl | rfl | rfl <;> decide)
    (typeTokens_avoid c hc)
    (by rcases hc with rfl | rfl | rfl <;> decide)
    (by rcases hc with rfl | rfl | rfl <;> decide)
    (by rcases hc with rfl | rfl | rfl <;> decide)
    (by rcases hc with rfl | rfl | rfl <;> decide)
    hf.1 hf.2.2 (fun _ _ => countChar_Sprint c hc _ hf.2.1)

theorem enumAvoids_iff (c : Char) (e : EnumDescriptor) :
    enumAvoids c e = true
      ↔ countChar c e.Name = 0 ∧ ∀ v ∈ e.Values, countChar c v.Name = 0 := by
  simp only [enumAvoids, Bool.and_eq_true, List.all_eq_true, textAvoids_iff]

theorem messageAvoids_mk (c : Char) (name : String) (fields : List FieldDescriptor)
    (msgs : List MessageDescriptor) (enums : List EnumDescriptor) :
    messageAvoids c (.mk name fields msgs enums) = true
      ↔ countChar c name = 0 ∧ (∀ f ∈ fields, fieldAvoids c f = true)
        ∧ messagesAvoid c msgs = true ∧ ∀ e ∈ enums, enumAvoids c e = true := by
  simp only [messageAvoids, Bool.and_eq_true, List.all_eq_true, textAvoids_iff, and_assoc]

theorem noBreak_enumLines (e : EnumDescriptor) (d : Nat) (he : enumAvoids '\n' e = true) :
    ∀ l ∈ enumLines e d, countChar '\n' l = 0 := by
  rw [enumAvoids_iff] at he
  intro l hl
  simp only [enumLines, List.mem_append, List.mem_singleton, List.mem_map] at hl
  rcases hl with (rfl | ⟨v, hv, rfl⟩) | rfl
  · simp only [countChar_append, he.1, countChar_spaces '\n' (by decide)]
    decide
  · simp only [enumValueLine, countChar_append, he.2 v hv, countChar_spaces '\n' (by decide),
      countChar_intToString '\n' (by decide) (by decide)]
    decide
  · simp only [countChar_append, countChar_spaces '\n' (by decide)]
    decide

theorem noBreak_serviceLines (s : ServiceDescriptor) (d : Nat)
    (hs : serviceAvoids '\n' s = true) : ∀ l ∈ serviceLines s d, countChar '\n' l = 0 := by
  simp only [serviceAvoids, Bool.and_eq_true, List.all_eq_true, textAvoids_iff] at hs
  intro l hl
  simp only [serviceLines, List.mem_append, List.mem_singleton, List.mem_map] at hl
  rcases hl with (rfl | ⟨m, hm, rfl⟩) | rfl
  · simp only [countChar_append, hs.1, countChar_spaces '\n' (by decide)]
    decide
  · simp only [methodLine, countChar_append, (hs.2 m hm).1.1, (hs.2 m hm).1.2,
      (hs.2 m hm).2, countChar_spaces '\n' (by decide)]
    decide
  · simp only [countChar_append, countChar_spaces '\n' (by decide)]
    decide

mutual
theorem noBreak_messageLines :
    ∀ (m : MessageDescriptor) (d : Nat), messageAvoids '\n' m = true →
      ∀ l ∈ messageLines m d, countChar '\n' l = 0
  | .mk name fields msgs enums, d, hm, l, hl => by
    rw [messageAvoids_mk] at hm
    rw [messageLines] at hl
    simp only [List.mem_append, List.mem_singleton, List.mem_map] at hl
    rcases hl with (((rfl | ⟨f, hf, rfl⟩) | h) | h) | rfl
    · simp only [countChar_append, hm.1, countChar_spaces '\n' (by decide)]
      decide
    · exact countChar_fieldLine_avoid '\n' (Or.inr (Or.inr rfl)) d f (hm.2.1 f hf)
    · exact noBreak_messagesLines msgs (d + 1) hm.2.2.1 l h
    · obtain ⟨e, he, hl2⟩ := mem_linesOf _ _ _ h
      exact noBreak_enumLines e (d + 1) (hm.2.2.2 e he) l hl2
    · simp only [countChar_append, countChar_spaces '\n' (by decide)]
      decide
theorem noBreak_messagesLines :
    ∀ (ms : List MessageDescriptor) (d : Nat), messagesAvoid '\n' ms = true →
      ∀ l ∈ messagesLines ms d, countChar '\n' l = 0
  | [], _, _, l, hl => by
    rw [messagesLines] at hl
    exact absurd hl (List.not_mem_nil _)
  | m :: ms, d, hms, l, hl => by
    simp only [messagesAvoid, Bool.and_eq_true] at hms
    rw [messagesLines, List.mem_append] at hl
    rcases hl with h | h
    · exact noBreak_messageLines m d hms.1 l h
    · exact noBreak_messagesLines ms d hms.2 l h
end

theorem messagesAvoid_iff (c : Char) (ms : List MessageDescriptor) :
    messagesAvoid c ms = true ↔ ∀ m ∈ ms, messageAvoids c m = true := by
  induction ms with
  | nil => simp [messagesAvoid]
  | cons m ms ih => simp [messagesAvoid, ih]

theorem noBreak_Syntax (s : Syntax) : countChar '\n' s.Sprint = 0 := by
  unfold Syntax.Sprint
  by_cases h1 : s = Proto2
  · rw [if_pos h1]
    decide
  · rw [if_neg h1]
    by_cases h2 : s = Proto3
    · rw [if_pos h2]
      decide
    · rw [if_neg h2]
      by_cases h3 : s = Editions
      · rw [if_pos h3]
        decide
      · rw [if_neg h3, countChar_append, countChar_append,
          countChar_intToString '\n' (by decide) (by decide)]
        decide

theorem noBreak_fileLines (fileName : String) (fd : FileDescriptor)
    (hc : fileAvoids '\n' fileName fd = true) :
    ∀ l ∈ fileLines fileName fd, countChar '\n' l = 0 := by
  simp only [fileAvoids, Bool.and_eq_true, List.all_eq_true, textAvoids_iff] at hc
  obtain ⟨⟨⟨⟨⟨⟨hname, hpkg⟩, hpath⟩, himp⟩, hmsg⟩, henum⟩, hsvc⟩ := hc
  intro l h
  rw [fileLines] at h
  simp only [List.mem_append, List.mem_cons, List.mem_singleton, List.not_mem_nil,
    or_false] at h
  rcases h with (((h | h) | h) | h) | h
  · rcases h with rfl | rfl | rfl | rfl | rfl
    · rfl
    · simp only [countChar_append, hname]
      decide
    · simp only [countChar_append, noBreak_Syntax]
      decide
    · simp only [countChar_append, hpkg]
      decide
    · simp only [countChar_append, hpath]
      decide
  · rcases sectionLines_mem _ _ _ _ h with h1 | ⟨i, hi, hl⟩
    · rw [h1.1]
      decide
    · rw [List.mem_singleton] at hl
      rw [hl, countChar_append, himp i hi]
      decide
  · rcases sectionLines_mem _ _ _ _ h with h1 | ⟨m, hm, hl⟩
    · rw [h1.1]
      decide
    · exact noBreak_messageLines m 1 ((messagesAvoid_iff '\n' fd.Messages).mp hmsg m hm) l hl
  · rcases sectionLines_mem _ _ _ _ h with h1 | ⟨e, he, hl⟩
    · rw [h1.1]
      decide
    · exact noBreak_enumLines e 1 (henum e he) l hl
  · rcases sectionLines_mem _ _ _ _ h with h1 | ⟨s, hs, hl⟩
    · rw [h1.1]
      decide
    · exact noBreak_serviceLines s 1 (hsvc s hs) l hl

/-! ## Block structure -/

set_option maxRecDepth 100000 in
/-- Counterexample to C11: the string field `note` with the explicit default
`a`, line break, `b` is printed as two lines, so that the block of a message
with this one field has four lines and not three. -/
theorem printMessage_one_line_counterexample :
    printMessage (.mk "M" [brokenLineField] [] []) 1
        = Printed.done
            ("    message M \x7b\n" ++ "     [*]string note = \"a\n" ++ "b\";\n" ++ "    \x7d \n")
    ∧ printField (spaces 4) brokenLineField
        = Printed.done ("     [*]string note = \"a\n" ++ "b\";\n")
    ∧ outputLines (printMessage (.mk "M" [brokenLineField] [] []) 1).text
        = ["    message M \x7b", "     [*]string note = \"a", "b\";", "    \x7d "]
    ∧ ¬ (∀ (field : FieldDescriptor) (d : Nat) (out : String),
          printField (spaces (4 * d)) field = Printed.done out → countChar '\n' out = 1) := by
  refine ⟨by decide, by decide, by decide, ?_⟩
  intro h
  have h2 := h brokenLineField 1 ("     [*]string note = \"a\n" ++ "b\";\n") (by decide)
  revert h2
  decide

/-- C11 as amended: for a message in whose tree every enum field has an
explicit default, the output of `printMessage` is, in this order and with
nothing else: the header line; the text of each field, in the order of the
field sequence; the blocks of the nested messages in their order; the blocks
of the nested enums in their order; the closing line. The text of a field ends
with `;` and the line break, and it is exactly one line when the field name and
the printed default hold no line break; when no name and no default of the tree
holds a line break, the lines of the output are the header line, one line per
field, the lines of the nested messages, the lines of the nested enums and the
closing line. -/
theorem printMessage_block_structure (m : MessageDescriptor) (d : Nat)
    (hp : panicFree m = true) :
    printMessage m d
        = Printed.done
            ((spaces (4 * d) ++ "message " ++ m.Name ++ " \x7b" ++ "\n")
              ++ String.join (m.Fields.map (fun f => fieldLine d f ++ "\n"))
              ++ String.join (m.Messages.map (fun c => unlines (messageLines c (d + 1))))
              ++ String.join (m.Enums.map (fun e => printEnum e (d + 1)))
              ++ (spaces (4 * d) ++ "\x7d " ++ "\n"))
    ∧ (∀ field ∈ m.Fields,
        printField (spaces (4 * d)) field = Printed.done (fieldLine d field ++ "\n"))
    ∧ (∀ c ∈ m.Messages,
        printMessage c (d + 1) = Printed.done (unlines (messageLines c (d + 1))))
    ∧ (m.Fields.map (fun f => fieldLine d f ++ "\n")).length = m.Fields.length
    ∧ (∀ field ∈ m.Fields, ∃ text, fieldLine d field = text ++ ";")
    ∧ (∀ field ∈ m.Fields, countChar '\n' field.Name = 0 →
        (field.Kind = EnumKind →
          ∀ ev, field.DefaultEnumValue = some ev → countChar '\n' ev.Name = 0) →
        (field.Kind ≠ MessageKind → field.Kind ≠ EnumKind →
          countChar '\n' field.Default.Sprint = 0) →
        countChar '\n' (fieldLine d field ++ "\n") = 1)
    ∧ (messageAvoids '\n' m = true →
        outputLines (printMessage m d).text
          = (spaces (4 * d) ++ "message " ++ m.Name ++ " \x7b")
            :: (m.Fields.map (fieldLine d) ++ messagesLines m.Messages (d + 1)
              ++ linesOf (fun e => enumLines e (d + 1)) m.Enums ++ [spaces (4 * d) ++ "\x7d "])) := by
  cases m with
  | mk name fields msgs enums =>
    have hp2 := (panicFree_mk name fields msgs enums).mp hp
    simp only [MessageDescriptor.Name, MessageDescriptor.Fields, MessageDescriptor.Messages,
      MessageDescriptor.Enums]
    refine ⟨?_, ?_, ?_, List.length_map _ _, ?_, ?_, ?_⟩
    · rw [printMessage_eq_unlines _ d hp, messageLines, unlines_append, unlines_append,
        unlines_append, unlines_append, unlines_singleton, unlines_singleton,
        unlines_linesOf, messagesLines_eq, unlines, forEach_map,
        forEach_congr (fun e => unlines (enumLines e (d + 1))) (fun e => printEnum e (d + 1)) _
          (fun e => (printEnum_eq_unlines e (d + 1)).symm),
        forEach_eq_join, forEach_eq_join, forEach_eq_join]
    · intro field hf
      exact printField_eq_fieldLine d field (hp2.1 field hf)
    · intro c hc
      exact printMessage_eq_unlines c (d + 1) ((panicFreeAll_iff msgs).mp hp2.2 c hc)
    · intro field hf
      obtain ⟨text, ht⟩ := defaultClause_ends field (hp2.1 field hf)
      refine ⟨spaces (4 * d) ++ " [" ++ String.singleton (fieldAttr field) ++ "]"
        ++ getFieldType field ++ " " ++ field.Name ++ text, ?_⟩
      rw [fieldLine, ht]
      simp only [String.append_assoc]
    · intro field _ hn he hd
      rw [countChar_append, countChar_fieldLine '\n' d field (by decide) (by decide)
        (by decide) (by decide) typeTokens_no_newline (by decide) (by decide) (by decide)
        (by decide) hn he hd]
      decide
    · intro hc
      rw [printMessage_eq_unlines _ d hp]
      show outputLines (unlines (messageLines (.mk name fields msgs enums) d)) = _
      rw [outputLines_unlines _ (noBreak_messageLines _ d hc), messageLines]
      simp only [List.singleton_append, List.cons_append, List.nil_append, List.append_assoc]

set_option maxRecDepth 100000 in
/-- The theorem of C11 as amended on a message with two fields, a nested
message and a nested enum, printed at depth 1, and on the line of one field. -/
theorem printMessage_block_structure_witness :
    printMessage
        (.mk "M" [plainField "b" BoolKind, plainField "a" Int32Kind]
          [.mk "N" [] [] []] [⟨"E", [⟨"X", 0⟩]⟩]) 1
        = Printed.done
            ("    message M \x7b\n"
              ++ "     [*]bool b = false;\n"
              ++ "     [*]int32 a = 0;\n"
              ++ "        message N \x7b\n"
              ++ "        \x7d \n"
              ++ "        enum E \x7b\n"
              ++ "          X = 0;\n"
              ++ "        \x7d\n"
              ++ "    \x7d \n")
    ∧ countChar '\n' (fieldLine 1 (plainField "age" Int32Kind) ++ "\n") = 1
    ∧ outputLines (printMessage personMessage 1).text
        = ["    message Person \x7b", "     [*]string name = \"\";", "     [*]int32 age = 0;",
            "    \x7d "] :=
  ⟨(printMessage_block_structure
      (.mk "M" [plainField "b" BoolKind, plainField "a" Int32Kind]
        [.mk "N" [] [] []] [⟨"E", [⟨"X", 0⟩]⟩]) 1 (by decide)).1.trans (by decide),
    (printMessage_block_structure (.mk "M" [plainField "age" Int32Kind] [] []) 1
      (by decide)).2.2.2.2.2.1 (plainField "age" Int32Kind) (List.mem_cons_self _ _)
      (show countChar '\n' (plainField "age" Int32Kind).Name = 0 by decide)
      (fun hk => absurd hk (by decide))
      (fun _ _ => show countChar '\n' (plainField "age" Int32Kind).Default.Sprint = 0 by
        decide),
    ((printMessage_block_structure personMessage 1 (by decide)).2.2.2.2.2.2
      (by decide)).trans (by decide)⟩

/-! ## Sections of the per-file output -/

set_option maxRecDepth 100000 in
/-- C12, counterexample: the file `t.proto` has no enum, and its one message
has a string field with the explicit default `"x\nEnums:\n"`; the default is
printed as it is, so the output of the file holds a line `Enums:`. -/
theorem printFileInfo_sections_counterexample :
    printFileInfo "t.proto" titleInDefaultFile
        = Printed.done ("\n"
          ++ "======== Proto File: t.proto ========\n"
          ++ "Syntax: proto2\n"
          ++ "Package: demo\n"
          ++ "Path: t.proto\n"
          ++ "Messages:\n"
          ++ "    message M \x7b\n"
          ++ "     [*]string note = \"x\n"
          ++ "Enums:\n"
          ++ "\";\n"
          ++ "    \x7d \n")
    ∧ "Enums:" ∈ outputLines (printFileInfo "t.proto" titleInDefaultFile).text
    ∧ titleInDefaultFile.Enums = []
    ∧ ¬ (∀ (fileName : String) (fd : FileDescriptor),
          "Enums:" ∈ outputLines (printFileInfo fileName fd).text ↔ fd.Enums ≠ []) := by
  refine ⟨by decide, by decide, rfl, fun h => ?_⟩
  exact (h "t.proto" titleInDefaultFile).mp (by decide) rfl

/-- C12, amended: when every enum field of the file has an explicit default
and no file name, package, path, name or default value holds a line break, the
per-file output of `PrintProtoInfo` is the text of the lines of `fileLines`, and
these are the lines of the output; among the lines of the output `Messages:`
occurs iff the file has a top-level message, `Enums:` iff it has a top-level
enum, `Services:` iff it has a service, `Imports:` iff it has an import; the
sections come in the order Imports, Messages, Enums, Services after the header
lines, and every top-level member is rendered at indent level 1. -/
theorem printFileInfo_sections (fileName : String) (fd : FileDescriptor)
    (hp : panicFreeAll fd.Messages = true) (hc : fileAvoids '\n' fileName fd = true) :
    printFileInfo fileName fd = Printed.done (unlines (fileLines fileName fd))
    ∧ outputLines (printFileInfo fileName fd).text = fileLines fileName fd
    ∧ ("Imports:" ∈ outputLines (printFileInfo fileName fd).text ↔ fd.Imports ≠ [])
    ∧ ("Messages:" ∈ outputLines (printFileInfo fileName fd).text ↔ fd.Messages ≠ [])
    ∧ ("Enums:" ∈ outputLines (printFileInfo fileName fd).text ↔ fd.Enums ≠ [])
    ∧ ("Services:" ∈ outputLines (printFileInfo fileName fd).text ↔ fd.Services ≠ [])
    ∧ (fd.Imports ≠ [] → fd.Messages ≠ [] → fd.Enums ≠ [] → fd.Services ≠ [] →
        outputLines (printFileInfo fileName fd).text
          = ["", "======== Proto File: " ++ fileName ++ " ========",
              "Syntax: " ++ fd.Syntax.Sprint, "Package: " ++ fd.Package, "Path: " ++ fd.Path]
            ++ "Imports:" :: fd.Imports.map (fun i => "  - " ++ i.FullName)
            ++ "Messages:" :: linesOf (fun m => messageLines m 1) fd.Messages
            ++ "Enums:" :: linesOf (fun e => enumLines e 1) fd.Enums
            ++ "Services:" :: linesOf (fun s => serviceLines s 1) fd.Services) := by
  have hlines : outputLines (printFileInfo fileName fd).text = fileLines fileName fd := by
    rw [printFileInfo_eq_unlines fileName fd hp]
    exact outputLines_unlines _ (noBreak_fileLines fileName fd hc)
  rw [hlines]
  refine ⟨printFileInfo_eq_unlines fileName fd hp, rfl, ⟨?_, ?_⟩, ⟨?_, ?_⟩, ⟨?_, ?_⟩, ⟨?_, ?_⟩, ?_⟩
  · intro h
    rcases fileLines_cases _ _ _ h with h | h | h | h | h | h | h | h | h
    · exact absurd h (by decide)
    · exact absurd h (by decide)
    · exact absurd h (by decide)
    · exact absurd h (by decide)
    · exact absurd h (by decide)
    · exact h.2
    · exact absurd h.1 (by decide)
    · exact absurd h.1 (by decide)
    · exact absurd h.1 (by decide)
  · intro h
    rw [fileLines]
    simp only [List.mem_append]
    exact Or.inl (Or.inl (Or.inl (Or.inr (title_mem_sectionLines _ _ _ h))))
  · intro h
    rcases fileLines_cases _ _ _ h with h | h | h | h | h | h | h | h | h
    · exact absurd h (by decide)
    · exact absurd h (by decide)
    · exact absurd h (by decide)
    · exact absurd h (by decide)
    · exact absurd h (by decide)
    · exact absurd h.1 (by decide)
    · exact h.2
    · exact absurd h.1 (by decide)
    · exact absurd h.1 (by decide)
  · intro h
    rw [fileLines]
    simp only [List.mem_append]
    exact Or.inl (Or.inl (Or.inr (title_mem_sectionLines _ _ _ h)))
  · intro h
    rcases fileLines_cases _ _ _ h with h | h | h | h | h | h | h | h | h
    · exact absurd h (by decide)
    · exact absurd h (by decide)
    · exact absurd h (by decide)
    · exact absurd h (by decide)
    · exact absurd h (by decide)
    · exact absurd h.1 (by decide)
    · exact absurd h.1 (by decide)
    · exact h.2
    · exact absurd h.1 (by decide)
  · intro h
    rw [fileLines]
    simp only [List.mem_append]
    exact Or.inl (Or.inr (title_mem_sectionLines _ _ _ h))
  · intro h
    rcases fileLines_cases _ _ _ h with h | h | h | h | h | h | h | h | h
    · exact absurd h (by decide)
    · exact absurd h (by decide)
    · exact absurd h (by decide)
    · exact absurd h (by decide)
    · exact absurd h (by decide)
    · exact absurd h.1 (by decide)
    · exact absurd h.1 (by decide)
    · exact absurd h.1 (by decide)
    · exact h.2
  · intro h
    rw [fileLines]
    simp only [List.mem_append]
    exact Or.inr (title_mem_sectionLines _ _ _ h)
  · intro hi hm he hs
    obtain ⟨i, is, hi2⟩ := List.exists_cons_of_ne_nil hi
    obtain ⟨m, ms, hm2⟩ := List.exists_cons_of_ne_nil hm
    obtain ⟨e, es, he2⟩ := List.exists_cons_of_ne_nil he
    obtain ⟨s, ss, hs2⟩ := List.exists_cons_of_ne_nil hs
    have hmap : ∀ xs : List FileImport,
        linesOf (fun i => ["  - " ++ i.FullName]) xs = xs.map (fun i => "  - " ++ i.FullName) := by
      intro xs
      induction xs with
      | nil => rfl
      | cons x xs ih => rw [linesOf, ih]; rfl
    rw [fileLines, hi2, hm2, he2, hs2, sectionLines, sectionLines, sectionLines, sectionLines,
      hmap]

set_option maxRecDepth 100000 in
/-- The theorem of C12 on a file with all four sections and on the file
`person.proto`, which has no import and no service. -/
theorem printFileInfo_sections_witness :
    panicFreeAll fullFile.Messages = true ∧ fileAvoids '\n' "full.proto" fullFile = true
    ∧ printFileInfo "full.proto" fullFile
        = Printed.done ("\n"
          ++ "======== Proto File: full.proto ========\n"
          ++ "Syntax: proto2\n"
          ++ "Package: demo\n"
          ++ "Path: full.proto\n"
          ++ "Imports:\n"
          ++ "  - common.v1\n"
          ++ "Messages:\n"
          ++ "    message M \x7b\n"
          ++ "    \x7d \n"
          ++ "Enums:\n"
          ++ "    enum Status \x7b\n"
          ++ "      UNKNOWN = 0;\n"
          ++ "      ACTIVE = 1;\n"
          ++ "    \x7d\n"
          ++ "Services:\n"
          ++ "    service Svc \x7b\n"
          ++ "      rpc Get (Req) returns (Resp);\n"
          ++ "    \x7d\n")
    ∧ "Messages:" ∈ outputLines (printFileInfo "person.proto" personFile).text
    ∧ "Imports:" ∉ outputLines (printFileInfo "person.proto" personFile).text
    ∧ "Services:" ∉ outputLines (printFileInfo "person.proto" personFile).text :=
  ⟨by decide, by decide,
    (printFileInfo_sections "full.proto" fullFile (by decide) (by decide)).1.trans (by decide),
    (printFileInfo_sections "person.proto" personFile (by decide) (by decide)).2.2.2.1.mpr
      (List.cons_ne_nil _ _),
    fun h =>
      (printFileInfo_sections "person.proto" personFile (by decide) (by decide)).2.2.1.mp h rfl,
    fun h =>
      (printFileInfo_sections "person.proto" personFile (by decide)
        (by decide)).2.2.2.2.2.1.mp h rfl⟩

/-! ## Registry -/

theorem FileMap.get_set (m : FileMap) (k : String) (v : FileDescriptor) (k' : String) :
    (m.set k v).get k' = if k = k' then some v else m.get k' := by
  induction m with
  | nil => simp only [FileMap.set, FileMap.get]
  | cons e rest ih =>
    obtain ⟨ke, ve⟩ := e
    by_cases h : ke = k
    · rw [FileMap.set, if_pos h, FileMap.get, FileMap.get, h]
      by_cases h2 : k = k'
      · rw [if_pos h2, if_pos h2]
      · rw [if_neg h2, if_neg h2, if_neg h2]
    · rw [FileMap.set, if_neg h, FileMap.get, FileMap.get, ih]
      by_cases h2 : ke = k'
      · have h3 : ¬ k = k' := fun h3 => h (h2.trans h3.symm)
        rw [if_pos h2, if_neg h3, if_pos h2]
      · rw [if_neg h2, if_neg h2]

theorem FileMap.mem_keys_of_get (m : FileMap) (k : String) (h : m.get k ≠ none) :
    k ∈ m.keys := by
  induction m with
  | nil => exact absurd rfl h
  | cons e rest ih =>
    obtain ⟨ke, ve⟩ := e
    by_cases h2 : ke = k
    · rw [← h2]
      exact List.mem_cons_self _ _
    · simp only [FileMap.get, if_neg h2] at h
      exact List.mem_cons_of_mem _ (ih h)

theorem FileMap.keys_set_of_mem (m : FileMap) (k : String) (v : FileDescriptor)
    (h : k ∈ m.keys) : (m.set k v).keys = m.keys := by
  induction m with
  | nil => exact absurd h (List.not_mem_nil _)
  | cons e rest ih =>
    obtain ⟨ke, ve⟩ := e
    by_cases h2 : ke = k
    · rw [FileMap.set, if_pos h2, h2]
      rfl
    · have h3 : k ∈ FileMap.keys rest := by
        rcases List.mem_cons.mp h with h4 | h4
        · exact absurd h4.symm h2
        · exact h4
      have ih2 := ih h3
      simp only [FileMap.keys] at ih2
      simp only [FileMap.set, if_neg h2, FileMap.keys, List.map_cons, ih2]

theorem FileMap.mem_keys_set (m : FileMap) (k : String) (v : FileDescriptor) :
    k ∈ (m.set k v).keys := by
  apply FileMap.mem_keys_of_get
  rw [FileMap.get_set, if_pos rfl]
  exact Option.some_ne_none v

theorem FileMap.keys_subset_set (m : FileMap) (k : String) (v : FileDescriptor) (k' : String)
    (h : k' ∈ m.keys) : k' ∈ (m.set k v).keys := by
  induction m with
  | nil => exact absurd h (List.not_mem_nil _)
  | cons e rest ih =>
    obtain ⟨ke, ve⟩ := e
    by_cases h2 : ke = k
    · simp only [FileMap.set, if_pos h2, FileMap.keys, List.map_cons, List.mem_cons]
      simp only [FileMap.keys, List.map_cons, List.mem_cons] at h
      rcases h with h | h
      · exact Or.inl (h.trans h2)
      · exact Or.inr h
    · simp only [FileMap.set, if_neg h2, FileMap.keys, List.map_cons, List.mem_cons]
      simp only [FileMap.keys, List.map_cons, List.mem_cons] at h
      rcases h with h | h
      · exact Or.inl h
      · exact Or.inr (ih h)

/-- The registry after the loop of `ParseProtoFile` over `fds`. -/
theorem store_get (fds : List ParsedFile) :
    ∀ (m : FileMap) (k : String),
      (fds.foldl (fun files fd => files.set fd.GetName fd.UnwrapFile) m).get k
        = match lastNamed fds k with
          | some fd => some fd.UnwrapFile
          | none => m.get k := by
  induction fds with
  | nil => intro m k; rfl
  | cons fd rest ih =>
    intro m k
    rw [List.foldl_cons, ih, lastNamed]
    cases hl : lastNamed rest k with
    | some later => rfl
    | none =>
      simp only [FileMap.get_set]
      by_cases h : fd.GetName = k
      · rw [if_pos h, if_pos h]
      · rw [if_neg h, if_neg h]

theorem store_keys_mem (fds : List ParsedFile) :
    ∀ (m : FileMap) (k : String),
      (k ∈ m.keys ∨ ∃ fd ∈ fds, fd.GetName = k) →
      k ∈ (fds.foldl (fun files fd => files.set fd.GetName fd.UnwrapFile) m).keys := by
  induction fds with
  | nil =>
    intro m k h
    rcases h with h | ⟨fd, hfd, _⟩
    · exact h
    · exact absurd hfd (List.not_mem_nil _)
  | cons fd rest ih =>
    intro m k h
    rw [List.foldl_cons]
    apply ih
    rcases h with h | ⟨fd2, hfd2, hk⟩
    · exact Or.inl (FileMap.keys_subset_set _ _ _ _ h)
    · rcases List.mem_cons.mp hfd2 with h3 | h3
      · left
        rw [← hk, h3]
        exact FileMap.mem_keys_set _ _ _
      · exact Or.inr ⟨fd2, h3, hk⟩

theorem store_keys_same (fds : List ParsedFile) :
    ∀ (m : FileMap), (∀ fd ∈ fds, fd.GetName ∈ m.keys) →
      (fds.foldl (fun files fd => files.set fd.GetName fd.UnwrapFile) m).keys = m.keys := by
  induction fds with
  | nil => intro m _; rfl
  | cons fd rest ih =>
    intro m h
    have h1 : (m.set fd.GetName fd.UnwrapFile).keys = m.keys :=
      FileMap.keys_set_of_mem _ _ _ (h fd (List.mem_cons_self _ _))
    rw [List.foldl_cons, ih, h1]
    intro fd2 hfd2
    rw [h1]
    exact h fd2 (List.mem_cons_of_mem _ hfd2)

/-- C16: after a successful `ParseProtoFile` whose parser result is `fds`,
the entry of every name `k` is the last descriptor of `fds` named `k` if there
is one, and otherwise what `Files` held before. Storing the same result a
second time leaves `Files` unchanged (same keys, same entries), and an
assignment to a name already stored replaces the entry without changing the
keys. -/
theorem ParseProtoFile_last_write_wins (p : ProtoParser) (filePath : String)
    (fds : List ParsedFile) (h : p.parser filePath = .ok fds) :
    (∀ k : String,
      (ParseProtoFile p filePath).1.Files.get k
        = match lastNamed fds k with
          | some fd => some fd.UnwrapFile
          | none => p.Files.get k)
    ∧ (∀ k : String,
        (ParseProtoFile (ParseProtoFile p filePath).1 filePath).1.Files.get k
          = (ParseProtoFile p filePath).1.Files.get k)
    ∧ (ParseProtoFile (ParseProtoFile p filePath).1 filePath).1.Files.keys
        = (ParseProtoFile p filePath).1.Files.keys
    ∧ (∀ (m : FileMap) (k : String) (v : FileDescriptor), m.get k ≠ none →
        (m.set k v).get k = some v ∧ (m.set k v).keys = m.keys
          ∧ (m.set k v).length = m.length) := by
  have h1 : ParseProtoFile p filePath
      = ({ p with
            Files := (fds.foldl (fun files fd => files.set fd.GetName fd.UnwrapFile)
              p.Files) }, none) := ParseProtoFile_ok p filePath fds h
  have h2 : ParseProtoFile (ParseProtoFile p filePath).1 filePath
      = ({ (ParseProtoFile p filePath).1 with
            Files := (fds.foldl (fun files fd => files.set fd.GetName fd.UnwrapFile)
              (ParseProtoFile p filePath).1.Files) }, none) :=
    ParseProtoFile_ok _ filePath fds (by rw [h1]; exact h)
  refine ⟨?_, ?_, ?_, ?_⟩
  · intro k
    rw [h1]
    exact store_get fds p.Files k
  · intro k
    rw [h2]
    show (fds.foldl (fun files fd => files.set fd.GetName fd.UnwrapFile)
      (ParseProtoFile p filePath).1.Files).get k = _
    rw [store_get]
    cases hl : lastNamed fds k with
    | none => rfl
    | some fd =>
      rw [h1]
      show _ = (fds.foldl (fun files fd => files.set fd.GetName fd.UnwrapFile) p.Files).get k
      rw [store_get, hl]
  · rw [h2]
    show (fds.foldl (fun files fd => files.set fd.GetName fd.UnwrapFile)
      (ParseProtoFile p filePath).1.Files).keys = _
    apply store_keys_same
    intro fd hfd
    rw [h1]
    exact store_keys_mem fds p.Files fd.GetName (Or.inr ⟨fd, hfd, rfl⟩)
  · intro m k v hk
    have hkeys := FileMap.keys_set_of_mem m k v (FileMap.mem_keys_of_get m k hk)
    refine ⟨?_, hkeys, ?_⟩
    · rw [FileMap.get_set, if_pos rfl]
    · have hlen := congrArg List.length hkeys
      simpa [FileMap.keys] using hlen

/-- The theorem of C16 on a parser result that names `a.proto` twice: the
entry of `a.proto` is the second descriptor, and the registry has two keys
after the first and after the second store. -/
theorem ParseProtoFile_last_write_wins_witness :
    (ParseProtoFile (NewProtoParser duplicateParser) "x").1.Files.get "a.proto"
        = some (emptyFile "second" "a.proto")
    ∧ (ParseProtoFile (ParseProtoFile (NewProtoParser duplicateParser) "x").1 "x").1.Files.keys
        = ["a.proto", "b.proto"] :=
  ⟨((ParseProtoFile_last_write_wins (NewProtoParser duplicateParser) "x" _ rfl).1
      "a.proto").trans rfl,
    ((ParseProtoFile_last_write_wins (NewProtoParser duplicateParser) "x" _ rfl).2.2.1).trans
      (by decide)⟩

/-- C19: `ParseProtoFile` returns an error iff the parser call fails; on
failure the parser state, `Files` included, is as before the call and the error
text is `failed to parse proto file <filePath>: <parser error text>`; on
success no error is returned. -/
theorem ParseProtoFile_error (p : ProtoParser) (filePath : String) :
    ((ParseProtoFile p filePath).2 ≠ none ↔ ∃ err, p.parser filePath = .error err)
    ∧ (∀ err : String, p.parser filePath = .error err →
        (ParseProtoFile p filePath).1 = p
        ∧ (ParseProtoFile p filePath).1.Files = p.Files
        ∧ (ParseProtoFile p filePath).2
            = some ("failed to parse proto file " ++ filePath ++ ": " ++ err))
    ∧ (∀ fds : List ParsedFile, p.parser filePath = .ok fds →
        (ParseProtoFile p filePath).2 = none) := by
  refine ⟨?_, ?_, ?_⟩
  · cases hp : p.parser filePath with
    | error err =>
      simp only [ParseProtoFile, hp]
      exact ⟨fun _ => ⟨err, rfl⟩, fun _ => Option.some_ne_none _⟩
    | ok fds =>
      simp only [ParseProtoFile, hp]
      constructor
      · intro h
        exact absurd rfl h
      · rintro ⟨err, herr⟩
        exact absurd herr (by simp)
  · intro err hp
    simp only [ParseProtoFile, hp]
    exact ⟨trivial, trivial, trivial⟩
  · intro fds hp
    simp only [ParseProtoFile, hp]

set_option maxRecDepth 100000 in
/-- The theorem of C19 on a failing parser and a registry that holds
`person.proto`: the registry is unchanged and the error text is as stated. -/
theorem ParseProtoFile_error_witness :
    (ParseProtoFile failingRegistry "x.proto").1.Files.keys = ["person.proto"]
    ∧ (ParseProtoFile failingRegistry "x.proto").2
        = some "failed to parse proto file x.proto: no such file"
    ∧ (ParseProtoFile (NewProtoParser twoFileParser) "a.proto").2 = none :=
  ⟨(congrArg FileMap.keys
      ((ParseProtoFile_error failingRegistry "x.proto").2.1 "no such file" rfl).2.1).trans
      (by decide),
    ((ParseProtoFile_error failingRegistry "x.proto").2.1 "no such file" rfl).2.2.trans
      (by decide),
    (ParseProtoFile_error (NewProtoParser twoFileParser) "a.proto").2.2 _ rfl⟩

/-! ## Imports and closing lines -/

set_option maxRecDepth 100000 in
/-- C13 (code at the failing input): for the file `main.proto` that imports
`common.proto` of package `common.v1`, the line of the Imports section is
`  - common.v1`, the package of the imported file, and not `  - common.proto`,
its file name. -/
theorem printFileInfo_import_line :
    printFileInfo "main.proto" importingFile
        = Printed.done
            ("\n" ++ "======== Proto File: main.proto ========\n" ++ "Syntax: proto3\n"
              ++ "Package: demo\n" ++ "Path: main.proto\n" ++ "Imports:\n" ++ "  - common.v1\n")
    ∧ fileLines "main.proto" importingFile
        = ["", "======== Proto File: main.proto ========", "Syntax: proto3", "Package: demo",
            "Path: main.proto", "Imports:", "  - common.v1"]
    ∧ outputLines (printFileInfo "main.proto" importingFile).text
        = fileLines "main.proto" importingFile
    ∧ "  - common.proto" ∉ fileLines "main.proto" importingFile := by
  refine ⟨?_, ?_, ?_, ?_⟩ <;> decide

set_option maxRecDepth 100000 in
/-- C18 (code at the failing input): the closing line of a message block is
`4*d` spaces, `}` and one space before the line break, while `printEnum` and
`printService` close with `4*d` spaces and `}` alone. The closing line is the
last thing `printMessage` writes, after the header line and the body; when the
body returns with the text `body`, the output is the header line, `body` and
the closing line. -/
theorem printMessage_closing_line :
    (∀ (m : MessageDescriptor) (d : Nat),
      printMessage m d
        = (Printed.done (spaces (4 * d) ++ "message " ++ m.Name ++ " \x7b\n")).andThen
            ((messageBody m d).andThen
              (Printed.done (spaces (4 * d) ++ "\x7d" ++ " " ++ "\n"))))
    ∧ (∀ (m : MessageDescriptor) (d : Nat) (body : String),
        messageBody m d = Printed.done body →
        printMessage m d
          = Printed.done
              (spaces (4 * d) ++ "message " ++ m.Name ++ " \x7b\n" ++ body
                ++ (spaces (4 * d) ++ "\x7d" ++ " " ++ "\n")))
    ∧ (∀ (e : EnumDescriptor) (d : Nat),
        (enumLines e d)[e.Values.length + 1]? = some (spaces (4 * d) ++ "\x7d"))
    ∧ (∀ (s : ServiceDescriptor) (d : Nat),
        (serviceLines s d)[s.Methods.length + 1]? = some (spaces (4 * d) ++ "\x7d"))
    ∧ printMessage (.mk "M" [] [] []) 1 = Printed.done ("    message M \x7b\n" ++ "    \x7d \n")
    ∧ printMessage (.mk "M" [] [] []) 1 ≠ Printed.done ("    message M \x7b\n" ++ "    \x7d\n")
    ∧ printEnum ⟨"E", []⟩ 1 = "    enum E \x7b\n" ++ "    \x7d\n"
    ∧ printService ⟨"S", []⟩ 1 = "    service S \x7b\n" ++ "    \x7d\n" := by
  refine ⟨?_, ?_, ?_, ?_, ?_, ?_, ?_, ?_⟩
  · intro m d
    rw [printMessage_eq, Repeat_four_spaces]
    simp only [String.append_assoc]
    rfl
  · intro m d body hb
    rw [printMessage_eq, Repeat_four_spaces, hb, Printed.done_andThen_done,
      Printed.done_andThen_done]
    simp only [String.append_assoc]
    rfl
  · intro e d
    have hl : enumLines e d
        = (spaces (4 * d) ++ "enum " ++ e.Name ++ " \x7b")
          :: (e.Values.map (enumValueLine d) ++ [spaces (4 * d) ++ "\x7d"]) := rfl
    rw [hl, List.getElem?_cons_succ,
      List.getElem?_append_right (by rw [List.length_map]), List.length_map, Nat.sub_self,
      List.getElem?_cons_zero]
  · intro s d
    have hl : serviceLines s d
        = (spaces (4 * d) ++ "service " ++ s.Name ++ " \x7b")
          :: (s.Methods.map (methodLine d) ++ [spaces (4 * d) ++ "\x7d"]) := rfl
    rw [hl, List.getElem?_cons_succ,
      List.getElem?_append_right (by rw [List.length_map]), List.length_map, Nat.sub_self,
      List.getElem?_cons_zero]
  · decide
  · decide
  · decide
  · decide

/-! ## Termination -/

mutual
theorem printMessageFuel_of_le :
    ∀ (m : MessageDescriptor) (d fuel : Nat), nestingDepth m ≤ fuel →
      printMessageFuel m d fuel = some (printMessage m d)
  | .mk name fields msgs enums, d, 0, h => by
    rw [nestingDepth] at h
    omega
  | .mk name fields msgs enums, d, rest + 1, h => by
    rw [nestingDepth] at h
    have ih := printMessagesFuel_of_le msgs (d + 1) rest (by omega)
    rw [printMessageFuel, printMessage, ih]
    simp only []
    rw [← Printed.andThen_assoc (Printed.done (Repeat "    " d ++ "message " ++ name ++ " \x7b\n"))
      (forEachP (printField (Repeat "    " d)) fields)]
    generalize (Printed.done (Repeat "    " d ++ "message " ++ name ++ " \x7b\n")).andThen
      (forEachP (printField (Repeat "    " d)) fields) = header
    cases header with
    | done out => rfl
    | panic out => rfl
theorem printMessagesFuel_of_le :
    ∀ (ms : List MessageDescriptor) (d fuel : Nat), nestingDepths ms ≤ fuel →
      printMessagesFuel ms d fuel = some (printMessages ms d)
  | [], d, fuel, _ => by
    rw [printMessagesFuel, printMessages]
  | m :: ms, d, fuel, h => by
    rw [nestingDepths] at h
    have h1 := printMessageFuel_of_le m d fuel (Nat.max_le.mp h).1
    have h2 := printMessagesFuel_of_le ms d fuel (Nat.max_le.mp h).2
    rw [printMessagesFuel, h1, h2, printMessages]
    cases printMessage m d with
    | done out => rfl
    | panic out => rfl
end

mutual
theorem printMessageFuel_eq :
    ∀ (m : MessageDescriptor) (d fuel : Nat), panicFree m = true →
      printMessageFuel m d fuel
        = if nestingDepth m ≤ fuel then some (printMessage m d) else none
  | .mk name fields msgs enums, d, 0, _ => by
    rw [printMessageFuel, nestingDepth, if_neg (by omega)]
  | .mk name fields msgs enums, d, rest + 1, hp => by
    by_cases h : nestingDepth (.mk name fields msgs enums) ≤ rest + 1
    · rw [if_pos h]
      exact printMessageFuel_of_le _ _ _ h
    · rw [if_neg h]
      rw [nestingDepth] at h
      rw [panicFree_mk] at hp
      have ih := printMessagesFuel_eq msgs (d + 1) rest hp.2
      rw [if_neg (by omega)] at ih
      rw [printMessageFuel, fields_eq_unlines d fields hp.1, Printed.done_andThen_done, ih]
theorem printMessagesFuel_eq :
    ∀ (ms : List MessageDescriptor) (d fuel : Nat), panicFreeAll ms = true →
      printMessagesFuel ms d fuel
        = if nestingDepths ms ≤ fuel then some (printMessages ms d) else none
  | [], d, fuel, _ => by
    rw [printMessagesFuel, nestingDepths, if_pos (Nat.zero_le _), printMessages]
  | m :: ms, d, fuel, hp => by
    simp only [panicFreeAll, Bool.and_eq_true] at hp
    have ih1 := printMessageFuel_eq m d fuel hp.1
    have ih2 := printMessagesFuel_eq ms d fuel hp.2
    rw [printMessagesFuel, nestingDepths, ih1, ih2]
    by_cases h1 : nestingDepth m ≤ fuel
    · by_cases h2 : nestingDepths ms ≤ fuel
      · rw [if_pos h1, if_pos h2, if_pos (Nat.max_le.mpr ⟨h1, h2⟩), printMessages,
          printMessage_eq_unlines m d hp.1]
      · rw [if_pos h1, if_neg h2, if_neg (fun h => h2 (Nat.max_le.mp h).2),
          printMessage_eq_unlines m d hp.1]
    · rw [if_neg h1, if_neg (fun h => h1 (Nat.max_le.mp h).1)]
end

theorem nestingDepth_pos (m : MessageDescriptor) : 1 ≤ nestingDepth m := by
  cases m
  rw [nestingDepth]
  omega

theorem nestingDepths_eq_zero (ms : List MessageDescriptor) :
    nestingDepths ms = 0 ↔ ms = [] := by
  cases ms with
  | nil => simp [nestingDepths]
  | cons m ms =>
    have h := nestingDepth_pos m
    rw [nestingDepths]
    constructor
    · intro h2
      omega
    · intro h2
      exact absurd h2 (List.cons_ne_nil _ _)

theorem nestingDepth_chain (n : Nat) : nestingDepth (chain n) = n + 1 := by
  induction n with
  | zero => rfl
  | succ n ih =>
    rw [chain, nestingDepth, nestingDepths, nestingDepths, ih]
    omega

theorem panicFree_chain (n : Nat) : panicFree (chain n) = true := by
  induction n with
  | zero => rfl
  | succ n ih =>
    rw [chain, panicFree_mk]
    refine ⟨fun f hf => absurd hf (List.not_mem_nil _), ?_⟩
    rw [panicFreeAll, ih]
    rfl

set_option maxRecDepth 100000 in
/-- C17 (code at the failing input): the message `Outer` has the nested message
`Inner` and the enum field `status` without explicit default; `printMessage`
does not return on it, it ends in the panic of parse.go:121 within the field
loop, before any recursive call: room for one activation suffices, although
the message has a nested message. In general room `fuel` suffices for every
message of nesting depth at most `fuel`, so `printMessage`, a total function
by structural recursion, ends on every tree; on a tree in which every enum
field has an explicit default it returns, room `fuel` suffices exactly when
`fuel` is at least the nesting depth, there are such trees of every nesting
depth, so no fixed room suffices for all of them, and room 1 suffices exactly
when the message has no nested messages. -/
theorem printMessage_terminates :
    printMessage failingTree 1 = Printed.panic ("    message Outer \x7b\n" ++ "     [*]enum status")
    ∧ (printMessage failingTree 1).returns = false
    ∧ failingTree.Messages = [.mk "Inner" [] [] []]
    ∧ printMessageFuel failingTree 1 1 = some (printMessage failingTree 1)
    ∧ (∀ (m : MessageDescriptor) (d fuel : Nat), nestingDepth m ≤ fuel →
        printMessageFuel m d fuel = some (printMessage m d))
    ∧ (∀ (m : MessageDescriptor) (d : Nat), panicFree m = true →
        (printMessage m d).returns = true
        ∧ ∀ fuel : Nat,
            printMessageFuel m d fuel
              = if nestingDepth m ≤ fuel then some (printMessage m d) else none)
    ∧ (∀ limit d : Nat, ∃ deep : MessageDescriptor, panicFree deep = true
        ∧ nestingDepth deep = limit + 1
        ∧ printMessageFuel deep d limit = none
        ∧ printMessageFuel deep d (limit + 1) = some (printMessage deep d))
    ∧ (∀ (m : MessageDescriptor) (d : Nat), panicFree m = true →
        (printMessageFuel m d 1 = some (printMessage m d) ↔ m.Messages = []))
    ∧ printMessageFuel (chain 2) 1 3
        = some (Printed.done
            ("    message M \x7b\n" ++ "        message M \x7b\n" ++ "            message M \x7b\n"
              ++ "            \x7d \n" ++ "        \x7d \n" ++ "    \x7d \n"))
    ∧ printMessageFuel (chain 2) 1 2 = none := by
  refine ⟨by decide, by decide, rfl, by decide, printMessageFuel_of_le, ?_, ?_, ?_, by decide,
    by decide⟩
  · intro m d hp
    refine ⟨?_, fun fuel => printMessageFuel_eq m d fuel hp⟩
    rw [printMessage_eq_unlines m d hp]
    rfl
  · intro limit d
    refine ⟨chain limit, panicFree_chain limit, nestingDepth_chain limit, ?_, ?_⟩
    · rw [printMessageFuel_eq _ _ _ (panicFree_chain limit), nestingDepth_chain,
        if_neg (by omega)]
    · rw [printMessageFuel_eq _ _ _ (panicFree_chain limit), nestingDepth_chain,
        if_pos (Nat.le_refl _)]
  · intro m d hp
    rw [printMessageFuel_eq m d 1 hp]
    cases m with
    | mk name fields msgs enums =>
      rw [nestingDepth, MessageDescriptor.Messages, ← nestingDepths_eq_zero]
      constructor
      · intro h
        by_cases h2 : nestingDepths msgs + 1 ≤ 1
        · omega
        · rw [if_neg h2] at h
          exact absurd h (by simp)
      · intro h
        rw [if_pos (by omega)]

/-! ## Brace balance -/

theorem countChar_prefixOf_le (c : Char) (s : String) (n : Nat) :
    countChar c (prefixOf s n) ≤ countChar c s :=
  List.Sublist.count_le (List.take_sublist n s.data) c

theorem prefixOf_append (a b : String) (n : Nat) :
    prefixOf (a ++ b) n = prefixOf a n ++ prefixOf b (n - a.data.length) := by
  apply String.ext
  simp only [prefixOf, String.data_append, List.take_append_eq_append_take]

theorem prefixOf_of_length_le (a : String) (n : Nat) (h : a.data.length ≤ n) :
    prefixOf a n = a := by
  apply String.ext
  simp only [prefixOf, List.take_of_length_le h]

theorem prefixOf_zero (a : String) : prefixOf a 0 = "" := rfl

theorem bracketedFrom_append (k j : Nat) (a b : String) (ha : bracketedFrom k a)
    (hj : countChar '}' a + j ≤ k + countChar '{' a) (hb : bracketedFrom j b) :
    bracketedFrom k (a ++ b) := by
  intro n
  rw [prefixOf_append, countChar_append, countChar_append]
  rcases Nat.le_total n a.data.length with h | h
  · have h0 : n - a.data.length = 0 := by omega
    rw [h0, prefixOf_zero, countChar_empty, countChar_empty]
    have := ha n
    omega
  · rw [prefixOf_of_length_le a n h]
    have := hb (n - a.data.length)
    omega

theorem bracketedFrom_of_count_le (k : Nat) (s : String) (h : countChar '}' s ≤ k) :
    bracketedFrom k s := by
  intro n
  have := countChar_prefixOf_le '}' s n
  omega

theorem bracketedFrom_mono (k j : Nat) (s : String) (h : bracketedFrom k s) (hkj : k ≤ j) :
    bracketedFrom j s := by
  intro n
  have := h n
  omega

theorem wellBracketed_iff (s : String) :
    wellBracketed s ↔ countChar '{' s = countChar '}' s ∧ bracketedFrom 0 s := by
  simp only [wellBracketed, bracketedFrom, Nat.zero_add]

theorem wellBracketed_of_free (s : String) (h1 : countChar '{' s = 0)
    (h2 : countChar '}' s = 0) : wellBracketed s := by
  rw [wellBracketed_iff]
  exact ⟨by rw [h1, h2], bracketedFrom_of_count_le 0 s (by omega)⟩

theorem wellBracketed_append (a b : String) (ha : wellBracketed a) (hb : wellBracketed b) :
    wellBracketed (a ++ b) := by
  rw [wellBracketed_iff] at ha hb ⊢
  refine ⟨by rw [countChar_append, countChar_append, ha.1, hb.1], ?_⟩
  exact bracketedFrom_append 0 0 a b ha.2 (by omega) hb.2

theorem wellBracketed_wrap (h body c : String) (h1 : countChar '{' h = 1)
    (h2 : countChar '}' h = 0) (hb : wellBracketed body) (c1 : countChar '{' c = 0)
    (c2 : countChar '}' c = 1) : wellBracketed (h ++ body ++ c) := by
  rw [wellBracketed_iff] at hb ⊢
  refine ⟨by simp only [countChar_append, h1, h2, c1, c2, hb.1]; omega, ?_⟩
  rw [String.append_assoc]
  apply bracketedFrom_append 0 1 h _ (bracketedFrom_of_count_le 0 h (by omega)) (by omega)
  apply bracketedFrom_append 1 1 body c (bracketedFrom_mono 0 1 body hb.2 (by omega))
    (by omega)
  exact bracketedFrom_of_count_le 1 c (by omega)

theorem wellBracketed_forEach {α : Type} (body : α → String) (xs : List α)
    (h : ∀ x ∈ xs, wellBracketed (body x)) : wellBracketed (forEach body xs) := by
  induction xs with
  | nil => exact wellBracketed_of_free _ rfl rfl
  | cons x xs ih =>
    rw [forEach]
    exact wellBracketed_append _ _ (h x (List.mem_cons_self _ _))
      (ih (fun y hy => h y (List.mem_cons_of_mem _ hy)))

theorem printEnum_counts (e : EnumDescriptor) (d : Nat) (h1 : enumAvoids '{' e = true)
    (h2 : enumAvoids '}' e = true) :
    countChar '{' (printEnum e d) = 1 ∧ countChar '}' (printEnum e d) = 1
      ∧ wellBracketed (printEnum e d) := by
  rw [enumAvoids_iff] at h1 h2
  have hval : ∀ c : Char, c = '{' ∨ c = '}' → ∀ v : EnumValueDescriptor,
      countChar c v.Name = 0 → countChar c (printEnumValue (Repeat "    " d) v) = 0 := by
    intro c hc v hv
    have hd : c ∉ ['0', '1', '2', '3', '4', '5', '6', '7', '8', '9'] := by
      rcases hc with rfl | rfl <;> decide
    have hm : c ≠ '-' := by
      rcases hc with rfl | rfl <;> decide
    have hsp : c ≠ ' ' := by
      rcases hc with rfl | rfl <;> decide
    simp only [printEnumValue, countChar_append, countChar_Repeat c hsp, hv,
      countChar_intToString c hd hm]
    rcases hc with rfl | rfl <;> decide
  have hv1 : countChar '{' (forEach (printEnumValue (Repeat "    " d)) e.Values) = 0 := by
    rw [countChar_forEach, total_const _ 0 _ (fun v hv =>
      hval '{' (Or.inl rfl) v (h1.2 v hv)), Nat.mul_zero]
  have hv2 : countChar '}' (forEach (printEnumValue (Repeat "    " d)) e.Values) = 0 := by
    rw [countChar_forEach, total_const _ 0 _ (fun v hv =>
      hval '}' (Or.inr rfl) v (h2.2 v hv)), Nat.mul_zero]
  have ho1 : countChar '{' (Repeat "    " d ++ "enum " ++ e.Name ++ " \x7b\n") = 1 := by
    simp only [countChar_append, countChar_Repeat '{' (by decide), h1.1]
    decide
  have hc1 : countChar '}' (Repeat "    " d ++ "enum " ++ e.Name ++ " \x7b\n") = 0 := by
    simp only [countChar_append, countChar_Repeat '}' (by decide), h2.1]
    decide
  have ho2 : countChar '{' (Repeat "    " d ++ "\x7d\n") = 0 := by
    simp only [countChar_append, countChar_Repeat '{' (by decide)]
    decide
  have hc2 : countChar '}' (Repeat "    " d ++ "\x7d\n") = 1 := by
    simp only [countChar_append, countChar_Repeat '}' (by decide)]
    decide
  have hshape : printEnum e d
      = (Repeat "    " d ++ "enum " ++ e.Name ++ " \x7b\n")
        ++ forEach (printEnumValue (Repeat "    " d)) e.Values
        ++ (Repeat "    " d ++ "\x7d\n") := by
    simp only [printEnum, String.append_assoc]
  rw [hshape]
  refine ⟨?_, ?_, ?_⟩
  · rw [countChar_append, countChar_append, ho1, ho2, hv1]
  · rw [countChar_append, countChar_append, hc1, hc2, hv2]
  · exact wellBracketed_wrap _ _ _ ho1 hc1 (wellBracketed_of_free _ hv1 hv2) ho2 hc2

theorem Printed.text_done_andThen (a : String) (r : Printed) :
    ((Printed.done a).andThen r).text = a ++ r.text := by
  cases r <;> rfl

theorem Printed.returns_andThen (a b : Printed) :
    (a.andThen b).returns = (a.returns && b.returns) := by
  cases a <;> cases b <;> rfl

theorem returns_forEachP {α : Type} (body : α → Printed) (xs : List α) :
    (forEachP body xs).returns = xs.all (fun x => (body x).returns) := by
  induction xs with
  | nil => rfl
  | cons x xs ih => rw [forEachP, Printed.returns_andThen, ih, List.all_cons]

theorem not_panicFreeField (field : FieldDescriptor) (h : panicFreeField field = false) :
    field.Kind = EnumKind ∧ field.DefaultEnumValue = none := by
  by_cases hk : field.Kind = EnumKind
  · cases hev : field.DefaultEnumValue with
    | none => exact ⟨hk, rfl⟩
    | some ev =>
      have : panicFreeField field = true := by
        rw [panicFreeField_iff]
        exact fun _ => ⟨ev, hev⟩
      rw [this] at h
      exact absurd h (by decide)
  · have : panicFreeField field = true := by
      rw [panicFreeField_iff]
      exact fun hk2 => absurd hk2 hk
    rw [this] at h
    exact absurd h (by decide)

theorem returns_printField (indentStr : String) (field : FieldDescriptor) :
    (printField indentStr field).returns = panicFreeField field := by
  cases hp : panicFreeField field with
  | true =>
    rw [printField, printFieldDefault_eq field hp, Printed.done_andThen_done]
    rfl
  | false =>
    obtain ⟨hk, hn⟩ := not_panicFreeField field hp
    rw [printField_enum_none indentStr field hk hn]
    rfl

mutual
theorem returns_printMessage :
    ∀ (m : MessageDescriptor) (d : Nat), (printMessage m d).returns = panicFree m
  | .mk name fields msgs enums, d => by
    rw [printMessage, panicFree, Printed.returns_andThen, Printed.returns_andThen,
      Printed.returns_andThen, Printed.returns_andThen, returns_forEachP,
      returns_printMessages msgs (d + 1)]
    simp only [returns_printField]
    simp only [Printed.returns, Bool.true_and, Bool.and_true]
theorem returns_printMessages :
    ∀ (ms : List MessageDescriptor) (d : Nat), (printMessages ms d).returns = panicFreeAll ms
  | [], _ => rfl
  | m :: ms, d => by
    rw [printMessages, panicFreeAll, Printed.returns_andThen, returns_printMessage m d,
      returns_printMessages ms d]
end

theorem countChar_printField_text (c : Char) (hc : c = '{' ∨ c = '}') (d : Nat)
    (field : FieldDescriptor) (hf : fieldAvoids c field = true) :
    countChar c (printField (Repeat "    " d) field).text = 0 := by
  cases hp : panicFreeField field with
  | true =>
    have hc3 : c = '{' ∨ c = '}' ∨ c = '\n' := by
      rcases hc with h | h
      · exact Or.inl h
      · exact Or.inr (Or.inl h)
    rw [Repeat_four_spaces, printField_eq_fieldLine d field hp]
    show countChar c (fieldLine d field ++ "\n") = 0
    rw [countChar_append, countChar_fieldLine_avoid c hc3 d field hf]
    rcases hc with rfl | rfl <;> decide
  | false =>
    obtain ⟨hk, hn⟩ := not_panicFreeField field hp
    rw [printField_enum_none _ field hk hn]
    rw [fieldAvoids_iff] at hf
    show countChar c (Repeat "    " d ++ " [" ++ String.singleton (fieldAttr field) ++ "]"
      ++ "enum" ++ " " ++ field.Name) = 0
    simp only [countChar_append, hf.1,
      countChar_Repeat c (by rcases hc with rfl | rfl <;> decide),
      countChar_fieldAttr c (by rcases hc with rfl | rfl <;> decide)]
    rcases hc with rfl | rfl <;> decide

theorem countChar_forEachP_text {α : Type} (c : Char) (body : α → Printed) (xs : List α)
    (h : ∀ x ∈ xs, countChar c (body x).text = 0) : countChar c (forEachP body xs).text = 0 := by
  induction xs with
  | nil => rfl
  | cons x xs ih =>
    have hx := h x (List.mem_cons_self _ _)
    have hxs := ih (fun y hy => h y (List.mem_cons_of_mem _ hy))
    rw [forEachP]
    cases hb : body x with
    | panic out =>
      rw [hb] at hx
      rw [Printed.panic_andThen]
      exact hx
    | done out =>
      rw [hb] at hx
      rw [Printed.text_done_andThen, countChar_append, hxs]
      exact hx

theorem bracesUpTo_of_free (r : Printed) (slack : Nat) (h1 : countChar '{' r.text = 0)
    (h2 : countChar '}' r.text = 0) (hs : r.returns = false → slack = 0) :
    bracesUpTo 0 slack r := by
  refine ⟨bracketedFrom_of_count_le 0 _ (by omega), fun _ => ⟨h1, h2⟩, fun hr => ?_⟩
  have := hs hr
  omega

theorem bracesUpTo_done (s : String) (k slack : Nat) (h : wellBracketed s)
    (hk : countChar '{' s = k) : bracesUpTo k slack (Printed.done s) := by
  rw [wellBracketed_iff] at h
  refine ⟨h.2, fun _ => ⟨hk, ?_⟩, fun hr => absurd hr (by simp [Printed.returns])⟩
  show countChar '}' s = k
  rw [← h.1, hk]

theorem bracesUpTo_weaken (k slack : Nat) (r : Printed) (h : bracesUpTo k slack r) :
    bracesUpTo k 0 r := by
  refine ⟨h.1, h.2.1, fun hr => ?_⟩
  have := h.2.2 hr
  omega

theorem bracesUpTo_andThen (ka kb slack : Nat) (a b : Printed) (ha : bracesUpTo ka slack a)
    (hb : bracesUpTo kb slack b) : bracesUpTo (ka + kb) slack (a.andThen b) := by
  cases a with
  | panic A =>
    rw [Printed.panic_andThen]
    refine ⟨ha.1, fun hr => absurd hr (by simp [Printed.returns]), fun hr => ?_⟩
    have := ha.2.2 hr
    omega
  | done A =>
    have hA := ha.2.1 rfl
    have hA1 : countChar '{' A = ka := hA.1
    have hA2 : countChar '}' A = ka := hA.2
    have hAb : bracketedFrom 0 A := ha.1
    have hbr : bracketedFrom 0 (A ++ b.text) :=
      bracketedFrom_append 0 0 A b.text hAb (by omega) hb.1
    cases b with
    | done B =>
      have hB := hb.2.1 rfl
      have hB1 : countChar '{' B = kb := hB.1
      have hB2 : countChar '}' B = kb := hB.2
      rw [Printed.done_andThen_done]
      refine ⟨hbr, fun _ => ⟨?_, ?_⟩, fun hr => absurd hr (by simp [Printed.returns])⟩
      · show countChar '{' (A ++ B) = ka + kb
        rw [countChar_append, hA1, hB1]
      · show countChar '}' (A ++ B) = ka + kb
        rw [countChar_append, hA2, hB2]
    | panic B =>
      have hB := hb.2.2 rfl
      have hB1 : countChar '}' B + slack ≤ countChar '{' B := hB.1
      have hB2 : countChar '{' B ≤ kb := hB.2
      rw [Printed.done_andThen_panic]
      refine ⟨hbr, fun hr => absurd hr (by simp [Printed.returns]), fun _ => ?_⟩
      show countChar '}' (A ++ B) + slack ≤ countChar '{' (A ++ B)
        ∧ countChar '{' (A ++ B) ≤ ka + kb
      rw [countChar_append, countChar_append, hA1, hA2]
      omega

theorem bracesUpTo_wrap (h c : String) (body : Printed) (k : Nat)
    (h1 : countChar '{' h = 1) (h2 : countChar '}' h = 0) (c1 : countChar '{' c = 0)
    (c2 : countChar '}' c = 1) (hb : bracesUpTo k 0 body) :
    bracesUpTo (k + 1) 1 ((Printed.done h).andThen (body.andThen (Printed.done c))) := by
  cases body with
  | done B =>
    have hB := hb.2.1 rfl
    have hB1 : countChar '{' B = k := hB.1
    have hB2 : countChar '}' B = k := hB.2
    have hBb : bracketedFrom 0 B := hb.1
    rw [Printed.done_andThen_done, Printed.done_andThen_done, ← String.append_assoc]
    apply bracesUpTo_done
    · exact wellBracketed_wrap h B c h1 h2 ((wellBracketed_iff B).mpr ⟨by rw [hB1, hB2], hBb⟩)
        c1 c2
    · rw [countChar_append, countChar_append, h1, hB1, c1]
      omega
  | panic B =>
    have hB := hb.2.2 rfl
    have hB1 : countChar '}' B + 0 ≤ countChar '{' B := hB.1
    have hB2 : countChar '{' B ≤ k := hB.2
    have hBb : bracketedFrom 0 B := hb.1
    rw [Printed.panic_andThen, Printed.done_andThen_panic]
    refine ⟨?_, fun hr => absurd hr (by simp [Printed.returns]), fun _ => ?_⟩
    · exact bracketedFrom_append 0 1 h B (bracketedFrom_of_count_le 0 h (by omega)) (by omega)
        (bracketedFrom_mono 0 1 B hBb (by omega))
    · show countChar '}' (h ++ B) + 1 ≤ countChar '{' (h ++ B) ∧ countChar '{' (h ++ B) ≤ k + 1
      rw [countChar_append, countChar_append, h1, h2]
      omega

mutual
theorem printMessage_braces :
    ∀ (m : MessageDescriptor) (d : Nat), messageAvoids '{' m = true →
      messageAvoids '}' m = true → bracesUpTo (blockCount m) 1 (printMessage m d)
  | .mk name fields msgs enums, d, ho, hc => by
    rw [messageAvoids_mk] at ho hc
    have hm := printMessages_braces msgs (d + 1) ho.2.2.1 hc.2.2.1
    have hf : bracesUpTo 0 0 (forEachP (printField (Repeat "    " d)) fields) :=
      bracesUpTo_of_free _ 0
        (countChar_forEachP_text '{' _ fields (fun f hfm =>
          countChar_printField_text '{' (Or.inl rfl) d f (ho.2.1 f hfm)))
        (countChar_forEachP_text '}' _ fields (fun f hfm =>
          countChar_printField_text '}' (Or.inr rfl) d f (hc.2.1 f hfm)))
        (fun _ => rfl)
    have he1 : countChar '{' (forEach (fun e => printEnum e (d + 1)) enums) = enums.length := by
      rw [countChar_forEach, total_const _ 1 _ (fun e hem =>
        (printEnum_counts e (d + 1) (ho.2.2.2 e hem) (hc.2.2.2 e hem)).1), Nat.mul_one]
    have he3 : wellBracketed (forEach (fun e => printEnum e (d + 1)) enums) :=
      wellBracketed_forEach _ _ (fun e hem =>
        (printEnum_counts e (d + 1) (ho.2.2.2 e hem) (hc.2.2.2 e hem)).2.2)
    have he : bracesUpTo enums.length 0
        (Printed.done (forEach (fun e => printEnum e (d + 1)) enums)) :=
      bracesUpTo_done _ _ 0 he3 he1
    have hbody : bracesUpTo (0 + (blockCounts msgs + enums.length)) 0
        (messageBody (.mk name fields msgs enums) d) :=
      bracesUpTo_andThen _ _ 0 _ _ hf
        (bracesUpTo_andThen _ _ 0 _ _ (bracesUpTo_weaken _ 1 _ hm) he)
    have ho1 : countChar '{' (Repeat "    " d ++ "message " ++ name ++ " \x7b\n") = 1 := by
      simp only [countChar_append, countChar_Repeat '{' (by decide), ho.1]
      decide
    have hc1 : countChar '}' (Repeat "    " d ++ "message " ++ name ++ " \x7b\n") = 0 := by
      simp only [countChar_append, countChar_Repeat '}' (by decide), hc.1]
      decide
    have ho2 : countChar '{' (Repeat "    " d ++ "\x7d \n") = 0 := by
      simp only [countChar_append, countChar_Repeat '{' (by decide)]
      decide
    have hc2 : countChar '}' (Repeat "    " d ++ "\x7d \n") = 1 := by
      simp only [countChar_append, countChar_Repeat '}' (by decide)]
      decide
    have hk : blockCount (.mk name fields msgs enums)
        = 0 + (blockCounts msgs + enums.length) + 1 := by
      rw [blockCount]
      omega
    rw [printMessage_eq, hk]
    exact bracesUpTo_wrap _ _ _ _ ho1 hc1 ho2 hc2 hbody
theorem printMessages_braces :
    ∀ (ms : List MessageDescriptor) (d : Nat), messagesAvoid '{' ms = true →
      messagesAvoid '}' ms = true → bracesUpTo (blockCounts ms) 1 (printMessages ms d)
  | [], _, _, _ =>
    ⟨bracketedFrom_of_count_le 0 _ (Nat.le_refl 0), fun _ => ⟨rfl, rfl⟩,
      fun hr => absurd hr (by simp [printMessages, Printed.returns])⟩
  | m :: ms, d, ho, hc => by
    simp only [messagesAvoid, Bool.and_eq_true] at ho hc
    rw [printMessages, blockCounts]
    exact bracesUpTo_andThen _ _ 1 _ _ (printMessage_braces m d ho.1 hc.1)
      (printMessages_braces ms d ho.2 hc.2)
end

set_option maxRecDepth 100000 in
/-- C20 (code at the failing input): the tree of the message `M` with the enum
field `status` without explicit default and the nested enum `Status` holds no
`{`, `}` or line break in a name or default, and has two blocks; `printMessage`
ends on it in the panic of parse.go:121 after writing one `{` and no `}`.
In general, on a tree without `{`, `}` and line break in names and defaults no
prefix of what `printMessage` writes has more `}` than `{`; `printMessage`
returns exactly when every enum field of the tree has an explicit default, and
then the output has as many `{` as `}`, both as many as there are messages plus
enums in the tree; when it does not return, the text written has fewer `}`
than `{`. -/
theorem printMessage_brace_balance :
    cleanMessage cleanFailingTree = true
    ∧ blockCount cleanFailingTree = 2
    ∧ printMessage cleanFailingTree 1
        = Printed.panic ("    message M \x7b\n" ++ "     [*]enum status")
    ∧ countChar '{' (printMessage cleanFailingTree 1).text = 1
    ∧ countChar '}' (printMessage cleanFailingTree 1).text = 0
    ∧ (∀ (m : MessageDescriptor) (d : Nat), (printMessage m d).returns = panicFree m)
    ∧ (∀ (m : MessageDescriptor) (d : Nat), cleanMessage m = true →
        (∀ n : Nat, countChar '}' (prefixOf (printMessage m d).text n)
          ≤ countChar '{' (prefixOf (printMessage m d).text n))
        ∧ (panicFree m = true →
            countChar '{' (printMessage m d).text = countChar '}' (printMessage m d).text
            ∧ countChar '{' (printMessage m d).text = blockCount m
            ∧ countChar '}' (printMessage m d).text = blockCount m)
        ∧ (panicFree m = false →
            countChar '}' (printMessage m d).text < countChar '{' (printMessage m d).text
            ∧ countChar '{' (printMessage m d).text ≤ blockCount m))
    ∧ cleanMessage sampleTree = true
    ∧ panicFree sampleTree = true
    ∧ countChar '{' (printMessage sampleTree 1).text = 5
    ∧ countChar '}' (printMessage sampleTree 1).text = 5 := by
  refine ⟨by decide, by decide, by decide, by decide, by decide, returns_printMessage, ?_,
    by decide, by decide, by decide, by decide⟩
  intro m d hm
  simp only [cleanMessage, Bool.and_eq_true] at hm
  obtain ⟨h1, h2, h3⟩ := printMessage_braces m d hm.1.1 hm.1.2
  rw [returns_printMessage] at h2 h3
  refine ⟨?_, fun hp => ?_, fun hp => ?_⟩
  · intro n
    have := h1 n
    omega
  · obtain ⟨a, b⟩ := h2 hp
    exact ⟨by rw [a, b], a, b⟩
  · obtain ⟨a, b⟩ := h3 hp
    exact ⟨by omega, b⟩

end Proto2Json
